import Mathlib

/-!
Verification of the segmentio/conf configuration loader.

This file gives a shallow embedding of the repository's dynamic value model
(type.go, value.go), its source merge engine (load in the loader file,
source.go), and the node tree / snakecase components (whose implementations
are exercised by the repository's tests), and proves the specification
claims about them.

Go machine integers: the configuration values manipulated here (field values,
ports, durations) are modelled with unbounded Int; none of the claims involves
overflow behaviour.
-/

namespace Conf

/--
GoType models the reflect.Type values a configuration schema can be built
from: scalar kinds, the special types recognised by specialType (duration,
network address, URL, email address), the specialValue marker type, and the
composite kinds handled by makeType (struct, map, slice, fixed-size array,
pointer).  Struct fields are positional, mirroring setStructValue which
copies fields by index.
-/
inductive GoType where
  | int : GoType
  | bool : GoType
  | str : GoType
  | duration : GoType
  | netAddr : GoType
  | url : GoType
  | email : GoType
  | specialValue : GoType
  | struct : List GoType → GoType
  | map : GoType → GoType → GoType
  | slice : GoType → GoType
  | array : Nat → GoType → GoType
  | ptr : GoType → GoType

/--
GoVal models the reflect.Value values that flow through setValue: scalars,
original special-typed values (a duration count, a network address with
IP/port/zone, a URL, an email address), the specialValue wrapper holding a
value, structs as positional field lists, maps and slices that are either
nil (none) or a concrete entry list (some), fixed arrays, and pointers that
are nil (none) or point at a value (some).  vinvalid models the invalid
reflect.Value held by a zero specialValue wrapper.
-/
inductive GoVal where
  | vint : Int → GoVal
  | vbool : Bool → GoVal
  | vstr : String → GoVal
  | vdur : Int → GoVal
  | vnetAddr : String → Int → String → GoVal
  | vurl : String → GoVal
  | vemail : String → String → GoVal
  | vspecial : GoVal → GoVal
  | vstruct : List GoVal → GoVal
  | vmap : Option (List (GoVal × GoVal)) → GoVal
  | vslice : Option (List GoVal) → GoVal
  | varray : List GoVal → GoVal
  | vptr : Option GoVal → GoVal
  | vinvalid : GoVal

/--
specialType mirrors type.go: a type is special when it is one of the
concrete types recognised there (time.Duration, net.TCPAddr / net.UDPAddr,
url.URL, mail.Address; we model the four kinds the claims name — time.Time
and user types implementing a decoder interface go through the very same
branch and behave identically).
-/
def specialType : GoType → Bool
  | .duration => true
  | .netAddr => true
  | .url => true
  | .email => true
  | _ => false

/-- GoType.isSpecialValue decides the comparison with the specialValue marker
type (the Go code compares reflect.Type values for identity). -/
def GoType.isSpecialValue : GoType → Bool
  | .specialValue => true
  | _ => false

mutual

/--
makeType mirrors type.go: it rebuilds a type, replacing every special type
with the specialValue marker type and preserving the composite structure
(struct fields, map key/element, slice element, array length and element,
pointer element).  Scalar kinds are returned unchanged.
-/
def makeType (t : GoType) : GoType :=
  if specialType t then .specialValue
  else
    match t with
    | .struct ts => .struct (makeTypeList ts)
    | .map tk te => .map (makeType tk) (makeType te)
    | .slice te => .slice (makeType te)
    | .array n te => .array n (makeType te)
    | .ptr te => .ptr (makeType te)
    | t' => t'
termination_by structural t

/-- makeTypeList maps makeType over a struct's field types (makeStructType). -/
def makeTypeList : List GoType → List GoType
  | [] => []
  | t :: ts => makeType t :: makeTypeList ts
termination_by structural ts => ts

end

mutual

/--
zero models reflect.Zero / reflect.New(...).Elem(): the zero value of a
type.  Maps, slices and pointers are nil; arrays hold the element zero in
every slot; a zero specialValue wrapper holds an invalid value.
-/
def zero : GoType → GoVal
  | .int => .vint 0
  | .bool => .vbool false
  | .str => .vstr ""
  | .duration => .vdur 0
  | .netAddr => .vnetAddr "" 0 ""
  | .url => .vurl ""
  | .email => .vemail "" ""
  | .specialValue => .vspecial .vinvalid
  | .struct ts => .vstruct (zeroList ts)
  | .map _ _ => .vmap none
  | .slice _ => .vslice none
  | .array n te => .varray (List.replicate n (zero te))
  | .ptr _ => .vptr none

/-- zeroList builds the zero values of a struct's field types. -/
def zeroList : List GoType → List GoVal
  | [] => []
  | t :: ts => zero t :: zeroList ts

end

mutual

/--
setValue mirrors value.go: a deep copy of v2 into a destination of type t1
whose current value is v1.  The first branch handles a specialValue-typed
destination (the wrapper stores a copy of the source); the second unwraps a
specialValue source; otherwise the copy dispatches on the source's kind.
Shape mismatches between t1/v1 and v2 would make the Go code panic; the
model returns the source unchanged in those unreachable branches.  A nil
source map or slice has no keys/elements, so the copy loop body never runs
and the destination is the freshly allocated empty container.
-/
def setValue (t1 : GoType) (v1 v2 : GoVal) : GoVal :=
  if t1.isSpecialValue then .vspecial v2
  else
    match v2 with
    | .vspecial w => w
    | .vstruct fs2 =>
      match t1, v1 with
      | .struct ts, .vstruct fs1 => .vstruct (setStructFields ts fs1 fs2)
      | _, _ => .vstruct fs2
    | .vmap none =>
      match t1 with
      | .map _ _ => .vmap (some [])
      | _ => .vmap none
    | .vmap (some es2) =>
      match t1 with
      | .map tk te => .vmap (some (setMapEntries tk te es2))
      | _ => .vmap (some es2)
    | .vslice none =>
      match t1 with
      | .slice _ => .vslice (some [])
      | _ => .vslice none
    | .vslice (some xs2) =>
      match t1 with
      | .slice te => .vslice (some (setSliceElems te xs2))
      | _ => .vslice (some xs2)
    | .varray xs2 =>
      match t1, v1 with
      | .array _ te, .varray xs1 =>
        .varray (setSliceElems te xs2 ++ xs1.drop xs2.length)
      | _, _ => .varray xs2
    | .vptr none =>
      match t1 with
      | .ptr _ => .vptr none
      | _ => .vptr none
    | .vptr (some w) =>
      match t1 with
      | .ptr te => .vptr (some (setValue te (zero te) w))
      | _ => .vptr (some w)
    | w => w
termination_by structural v2

/--
setStructFields mirrors setStructValue: fields are copied positionally, one
destination type and current value per source field.
-/
def setStructFields : List GoType → List GoVal → List GoVal → List GoVal
  | _, _, [] => []
  | t :: ts, f1 :: fs1, f2 :: fs2 => setValue t f1 f2 :: setStructFields ts fs1 fs2
  | _, _, fs2 => fs2
termination_by structural _ _ fs2 => fs2

/--
setMapEntries mirrors setMapValue's loop: each source key and element is
copied into freshly allocated (zero) destinations.
-/
def setMapEntries (tk te : GoType) : List (GoVal × GoVal) → List (GoVal × GoVal)
  | [] => []
  | (k2, e2) :: rest =>
    (setValue tk (zero tk) k2, setValue te (zero te) e2) :: setMapEntries tk te rest
termination_by structural es => es

/--
setSliceElems mirrors the element loops of setSliceValue and setArrayValue:
each source element is copied into a freshly allocated (zero) destination.
-/
def setSliceElems (te : GoType) : List GoVal → List GoVal
  | [] => []
  | x :: xs => setValue te (zero te) x :: setSliceElems te xs
termination_by structural xs => xs

end

/--
makeValue mirrors value.go: the source value v1 of type t1 is copied into a
freshly built value of the rebuilt type makeType t1; when the rebuilt type
is the specialValue marker the fresh value wraps v1 itself.
-/
def makeValue (t1 : GoType) (v1 : GoVal) : GoVal :=
  let t2 := makeType t1
  let v2 := if t2.isSpecialValue then .vspecial v1 else zero t2
  setValue t2 v2 v1

/--
loadRoundTrip models the value path of Loader.Load on a schema of type t:
the configuration value is copied into its shadow with makeValue, and (after
the sources ran) copied back into the zeroed original with setValue.  Here
we take the shadow as-is, i.e. the round trip with no source writing.
-/
def loadRoundTrip (t : GoType) (v : GoVal) : GoVal :=
  setValue t (zero t) (makeValue t v)

/--
HasType is the typing relation between the modelled runtime values and
schema types: it pins the structural congruence that the Go reflection code
relies on (field counts, array lengths, nil-or-entry maps/slices/pointers).
Original schema values never contain the specialValue wrapper.
-/
inductive HasType : GoVal → GoType → Prop where
  | int (n : Int) : HasType (.vint n) .int
  | bool (b : Bool) : HasType (.vbool b) .bool
  | str (s : String) : HasType (.vstr s) .str
  | dur (n : Int) : HasType (.vdur n) .duration
  | netAddr (ip : String) (port : Int) (zone : String) :
      HasType (.vnetAddr ip port zone) .netAddr
  | url (s : String) : HasType (.vurl s) .url
  | email (n a : String) : HasType (.vemail n a) .email
  | struct {fs : List GoVal} {ts : List GoType} :
      fs.length = ts.length → (∀ p ∈ List.zip fs ts, HasType p.1 p.2) →
      HasType (.vstruct fs) (.struct ts)
  | mapNil (tk te : GoType) : HasType (.vmap none) (.map tk te)
  | mapSome {es : List (GoVal × GoVal)} {tk te : GoType} :
      (∀ p ∈ es, HasType p.1 tk) → (∀ p ∈ es, HasType p.2 te) →
      HasType (.vmap (some es)) (.map tk te)
  | sliceNil (te : GoType) : HasType (.vslice none) (.slice te)
  | sliceSome {xs : List GoVal} {te : GoType} :
      (∀ x ∈ xs, HasType x te) → HasType (.vslice (some xs)) (.slice te)
  | array {xs : List GoVal} {n : Nat} {te : GoType} :
      xs.length = n → (∀ x ∈ xs, HasType x te) → HasType (.varray xs) (.array n te)
  | ptrNil (te : GoType) : HasType (.vptr none) (.ptr te)
  | ptrSome {w : GoVal} {te : GoType} :
      HasType w te → HasType (.vptr (some w)) (.ptr te)

mutual

/--
collOk decides that a value contains no nil map and no nil slice in the
positions the deep copy traverses (it does not look inside a specialValue
wrapper, whose held value is copied verbatim).
-/
def collOk : GoVal → Bool
  | .vmap none => false
  | .vslice none => false
  | .vmap (some es) => collOkEntries es
  | .vslice (some xs) => collOkList xs
  | .vstruct fs => collOkList fs
  | .varray xs => collOkList xs
  | .vptr (some w) => collOk w
  | _ => true
termination_by structural v => v

/-- collOkList checks collOk on every element of a list. -/
def collOkList : List GoVal → Bool
  | [] => true
  | x :: xs => collOk x && collOkList xs
termination_by structural xs => xs

/-- collOkEntries checks collOk on every key and element of a map entry list. -/
def collOkEntries : List (GoVal × GoVal) → Bool
  | [] => true
  | (k, e) :: rest => collOk k && collOk e && collOkEntries rest
termination_by structural es => es

end

/-! Helper lemmas about the value-transfer engine. -/

theorem band_true {a b : Bool} (h : (a && b) = true) : a = true ∧ b = true := by
  constructor <;> simp_all

theorem setValue_specialDst (v1 v2 : GoVal) :
    setValue .specialValue v1 v2 = .vspecial v2 := by
  cases v2 with
  | vmap o => cases o <;> rfl
  | vslice o => cases o <;> rfl
  | vptr o => cases o <;> rfl
  | _ => rfl

theorem makeValue_eq (t : GoType) (v : GoVal) :
    makeValue t v = setValue (makeType t) (zero (makeType t)) v := by
  unfold makeValue
  cases h : makeType t with
  | specialValue => rw [setValue_specialDst, setValue_specialDst]
  | _ => rfl

theorem collOkList_mem {xs : List GoVal} (h : collOkList xs = true) :
    ∀ x ∈ xs, collOk x = true := by
  induction xs with
  | nil => intro x hx; cases hx
  | cons a xs ih =>
    rw [collOkList] at h
    intro x hx
    rcases List.mem_cons.mp hx with rfl | hx
    · exact (band_true h).1
    · exact ih (band_true h).2 x hx

theorem collOkEntries_mem {es : List (GoVal × GoVal)} (h : collOkEntries es = true) :
    ∀ p ∈ es, collOk p.1 = true ∧ collOk p.2 = true := by
  induction es with
  | nil => intro p hp; cases hp
  | cons a es ih =>
    obtain ⟨k, e⟩ := a
    rw [collOkEntries] at h
    intro p hp
    rcases List.mem_cons.mp hp with rfl | hp
    · exact ⟨(band_true (band_true h).1).1, (band_true (band_true h).1).2⟩
    · exact ih (band_true h).2 p hp

theorem setSliceElems_length (te : GoType) (xs : List GoVal) :
    (setSliceElems te xs).length = xs.length := by
  induction xs with
  | nil => rfl
  | cons x xs ih => rw [setSliceElems]; simp [ih]

theorem setStructFields_roundtrip :
    ∀ (ts : List GoType) (fs : List GoVal),
      fs.length = ts.length →
      (∀ p ∈ List.zip fs ts, collOk p.1 = true →
        setValue p.2 (zero p.2) (setValue (makeType p.2) (zero (makeType p.2)) p.1) = p.1) →
      collOkList fs = true →
      setStructFields ts (zeroList ts)
        (setStructFields (makeTypeList ts) (zeroList (makeTypeList ts)) fs) = fs
  | _, [], _, _, _ => by rw [setStructFields, setStructFields]
  | t :: ts, f :: fs, hlen, hmem, hcoll => by
    rw [makeTypeList, zeroList, zeroList, setStructFields, setStructFields]
    have hc := band_true (by rw [collOkList] at hcoll; exact hcoll)
    have hhd := hmem (f, t) (by simp [List.zip]) hc.1
    have htl := setStructFields_roundtrip ts fs (by simpa using hlen)
      (fun p hp hcp => hmem p (by simp [List.zip, hp]; right; simpa [List.zip] using hp) hcp) hc.2
    rw [hhd, htl]
  | [], f :: fs, hlen, _, _ => by simp at hlen

theorem setSliceElems_roundtrip :
    ∀ (te : GoType) (xs : List GoVal),
      (∀ x ∈ xs, collOk x = true →
        setValue te (zero te) (setValue (makeType te) (zero (makeType te)) x) = x) →
      collOkList xs = true →
      setSliceElems te (setSliceElems (makeType te) xs) = xs
  | _, [], _, _ => by rw [setSliceElems, setSliceElems]
  | te, x :: xs, hmem, hcoll => by
    rw [setSliceElems, setSliceElems]
    have hc := band_true (by rw [collOkList] at hcoll; exact hcoll)
    rw [hmem x (by simp) hc.1,
      setSliceElems_roundtrip te xs (fun y hy => hmem y (by simp [hy])) hc.2]

theorem setMapEntries_roundtrip :
    ∀ (tk te : GoType) (es : List (GoVal × GoVal)),
      (∀ p ∈ es, collOk p.1 = true →
        setValue tk (zero tk) (setValue (makeType tk) (zero (makeType tk)) p.1) = p.1) →
      (∀ p ∈ es, collOk p.2 = true →
        setValue te (zero te) (setValue (makeType te) (zero (makeType te)) p.2) = p.2) →
      collOkEntries es = true →
      setMapEntries tk te (setMapEntries (makeType tk) (makeType te) es) = es
  | _, _, [], _, _, _ => by rw [setMapEntries, setMapEntries]
  | tk, te, (k, e) :: es, hk, he, hcoll => by
    rw [setMapEntries, setMapEntries]
    rw [collOkEntries] at hcoll
    have h1 := band_true hcoll
    have h2 := band_true h1.1
    rw [hk (k, e) (by simp) h2.1, he (k, e) (by simp) h2.2,
      setMapEntries_roundtrip tk te es (fun p hp => hk p (by simp [hp]))
        (fun p hp => he p (by simp [hp])) h1.2]

theorem hasType_roundtrip {v : GoVal} {t : GoType} (h : HasType v t) :
    collOk v = true →
    setValue t (zero t) (setValue (makeType t) (zero (makeType t)) v) = v := by
  induction h with
  | int n => intro _; rfl
  | bool b => intro _; rfl
  | str s => intro _; rfl
  | dur n => intro _; rfl
  | netAddr ip port zone => intro _; rfl
  | url s => intro _; rfl
  | email n a => intro _; rfl
  | @struct fs ts hlen hmem ih =>
    intro hc
    exact congrArg GoVal.vstruct (setStructFields_roundtrip ts fs hlen ih hc)
  | mapNil tk te => intro hc; exact absurd hc (by rw [collOk]; simp)
  | @mapSome es tk te hk he ihk ihe =>
    intro hc
    exact congrArg (fun l => GoVal.vmap (some l))
      (setMapEntries_roundtrip tk te es ihk ihe hc)
  | sliceNil te => intro hc; exact absurd hc (by rw [collOk]; simp)
  | @sliceSome xs te hx ih =>
    intro hc
    exact congrArg (fun l => GoVal.vslice (some l)) (setSliceElems_roundtrip te xs ih hc)
  | @array xs n te hlen hx ih =>
    intro hc
    have h1 : (List.replicate n (zero (makeType te))).drop xs.length = [] :=
      List.drop_eq_nil_of_le (by simp [hlen])
    have h2 : setValue (makeType (.array n te)) (zero (makeType (.array n te))) (.varray xs)
        = .varray (setSliceElems (makeType te) xs) := by
      show GoVal.varray (setSliceElems (makeType te) xs
          ++ (List.replicate n (zero (makeType te))).drop xs.length) = _
      rw [h1, List.append_nil]
    rw [h2]
    have h3 : (List.replicate n (zero te)).drop (setSliceElems (makeType te) xs).length = [] :=
      List.drop_eq_nil_of_le (by simp [setSliceElems_length, hlen])
    show GoVal.varray (setSliceElems te (setSliceElems (makeType te) xs)
        ++ (List.replicate n (zero te)).drop (setSliceElems (makeType te) xs).length) = _
    rw [h3, List.append_nil]
    exact congrArg GoVal.varray (setSliceElems_roundtrip te xs ih hc)
  | ptrNil te => intro _; rfl
  | @ptrSome w te hw ih =>
    intro hc
    exact congrArg (fun x => GoVal.vptr (some x)) (ih hc)

theorem setStructFields_collOk :
    ∀ (ts : List GoType) (fs : List GoVal),
      fs.length = ts.length →
      (∀ p ∈ List.zip fs ts,
        collOk (setValue p.2 (zero p.2)
          (setValue (makeType p.2) (zero (makeType p.2)) p.1)) = true) →
      collOkList (setStructFields ts (zeroList ts)
        (setStructFields (makeTypeList ts) (zeroList (makeTypeList ts)) fs)) = true
  | _, [], _, _ => by rw [setStructFields, setStructFields]; rfl
  | t :: ts, f :: fs, hlen, hmem => by
    rw [makeTypeList, zeroList, zeroList, setStructFields, setStructFields, collOkList]
    rw [hmem (f, t) (by simp [List.zip]),
      setStructFields_collOk ts fs (by simpa using hlen)
        (fun p hp => hmem p (by simp [List.zip, hp]; right; simpa [List.zip] using hp))]
    rfl
  | [], f :: fs, hlen, _ => by simp at hlen

theorem setSliceElems_collOk :
    ∀ (te : GoType) (xs : List GoVal),
      (∀ x ∈ xs,
        collOk (setValue te (zero te)
          (setValue (makeType te) (zero (makeType te)) x)) = true) →
      collOkList (setSliceElems te (setSliceElems (makeType te) xs)) = true
  | _, [], _ => by rw [setSliceElems, setSliceElems]; rfl
  | te, x :: xs, hmem => by
    rw [setSliceElems, setSliceElems, collOkList]
    rw [hmem x (by simp), setSliceElems_collOk te xs (fun y hy => hmem y (by simp [hy]))]
    rfl

theorem setMapEntries_collOk :
    ∀ (tk te : GoType) (es : List (GoVal × GoVal)),
      (∀ p ∈ es,
        collOk (setValue tk (zero tk)
          (setValue (makeType tk) (zero (makeType tk)) p.1)) = true) →
      (∀ p ∈ es,
        collOk (setValue te (zero te)
          (setValue (makeType te) (zero (makeType te)) p.2)) = true) →
      collOkEntries (setMapEntries tk te (setMapEntries (makeType tk) (makeType te) es)) = true
  | _, _, [], _, _ => by rw [setMapEntries, setMapEntries]; rfl
  | tk, te, (k, e) :: es, hk, he => by
    rw [setMapEntries, setMapEntries, collOkEntries]
    rw [hk (k, e) (by simp), he (k, e) (by simp),
      setMapEntries_collOk tk te es (fun p hp => hk p (by simp [hp]))
        (fun p hp => he p (by simp [hp]))]
    rfl

theorem hasType_collFresh {v : GoVal} {t : GoType} (h : HasType v t) :
    collOk (setValue t (zero t) (setValue (makeType t) (zero (makeType t)) v)) = true := by
  induction h with
  | int n => rfl
  | bool b => rfl
  | str s => rfl
  | dur n => rfl
  | netAddr ip port zone => rfl
  | url s => rfl
  | email n a => rfl
  | @struct fs ts hlen hmem ih =>
    exact setStructFields_collOk ts fs hlen ih
  | mapNil tk te => rfl
  | @mapSome es tk te hk he ihk ihe =>
    exact setMapEntries_collOk tk te es ihk ihe
  | sliceNil te => rfl
  | @sliceSome xs te hx ih =>
    exact setSliceElems_collOk te xs ih
  | @array xs n te hlen hx ih =>
    have h1 : (List.replicate n (zero (makeType te))).drop xs.length = [] :=
      List.drop_eq_nil_of_le (by simp [hlen])
    have h2 : setValue (makeType (.array n te)) (zero (makeType (.array n te))) (.varray xs)
        = .varray (setSliceElems (makeType te) xs) := by
      show GoVal.varray (setSliceElems (makeType te) xs
          ++ (List.replicate n (zero (makeType te))).drop xs.length) = _
      rw [h1, List.append_nil]
    rw [h2]
    have h3 : (List.replicate n (zero te)).drop (setSliceElems (makeType te) xs).length = [] :=
      List.drop_eq_nil_of_le (by simp [setSliceElems_length, hlen])
    show collOk (GoVal.varray (setSliceElems te (setSliceElems (makeType te) xs)
        ++ (List.replicate n (zero te)).drop (setSliceElems (makeType te) xs).length)) = true
    rw [h3, List.append_nil]
    exact setSliceElems_collOk te xs ih
  | ptrNil te => rfl
  | @ptrSome w te hw ih =>
    exact ih

theorem setMapEntries_length (tk te : GoType) (es : List (GoVal × GoVal)) :
    (setMapEntries tk te es).length = es.length := by
  induction es with
  | nil => rfl
  | cons p es ih => obtain ⟨k, e⟩ := p; rw [setMapEntries]; simp [ih]

/-- sampleT is a schema type exercising every supported shape, including the
four special types. -/
def sampleT : GoType :=
  .struct [.int, .duration, .netAddr, .url, .email, .ptr .duration, .slice .str,
    .map .str .duration, .array 2 .int, .bool]

/-- sampleV is a value of type sampleT with every collection non-nil. -/
def sampleV : GoVal :=
  .vstruct [.vint 3, .vdur 7, .vnetAddr "127.0.0.1" 80 "", .vurl "http://x",
    .vemail "Bob" "bob@x.com", .vptr (some (.vdur 9)), .vslice (some [.vstr "a"]),
    .vmap (some [(.vstr "k", .vdur 1)]), .varray [.vint 1, .vint 2], .vbool true]

theorem sampleV_hasType : HasType sampleV sampleT := by
  refine HasType.struct (by rfl) ?_
  intro p hp
  fin_cases hp
  · exact .int 3
  · exact .dur 7
  · exact .netAddr "127.0.0.1" 80 ""
  · exact .url "http://x"
  · exact .email "Bob" "bob@x.com"
  · exact .ptrSome (.dur 9)
  · refine .sliceSome ?_
    intro x hx
    fin_cases hx
    exact .str "a"
  · refine .mapSome ?_ ?_ <;> intro q hq <;> fin_cases hq
    · exact .str "k"
    · exact .dur 1
  · refine .array (by rfl) ?_
    intro x hx
    fin_cases hx
    · exact .int 1
    · exact .int 2
  · exact .bool true

/-- nilSampleT is a schema type with a map field, a slice field and a pointer
field. -/
def nilSampleT : GoType := .struct [.map .str .int, .slice .int, .ptr .int]

/-- nilSampleV leaves the map, the slice and the pointer of nilSampleT nil. -/
def nilSampleV : GoVal := .vstruct [.vmap none, .vslice none, .vptr none]

theorem nilSampleV_hasType : HasType nilSampleV nilSampleT := by
  refine HasType.struct (by rfl) ?_
  intro p hp
  fin_cases hp
  · exact .mapNil _ _
  · exact .sliceNil _
  · exact .ptrNil _

/-!
Claim C2 — the makeValue / setValue round trip.

As stated ("reproduces v exactly ... for every schema instance of a
supported shape") the claim fails on values that contain a nil map or a nil
slice: setMapValue / setSliceValue always allocate a fresh destination
container, so a nil collection comes back as an empty non-nil one, which is
not deeply equal to the original.  The round trip is exact once every map
and slice reached by the copy is non-nil.
-/

/--
C2 (counterexample): a schema instance of a supported shape (a well-typed
value of a map type) whose makeValue/setValue round trip does not reproduce
the original: the nil map comes back as an empty non-nil map.
-/
theorem C2_counterexample :
    HasType (GoVal.vmap none) (GoType.map .str .int) ∧
    loadRoundTrip (.map .str .int) (.vmap none) ≠ .vmap none := by
  refine ⟨.mapNil _ _, ?_⟩
  rw [show loadRoundTrip (.map .str .int) (.vmap none) = .vmap (some []) from rfl]
  simp

/--
C2 (amended): for every well-typed schema instance v in which every map and
slice reached by the copy is non-nil, copying v into its dynamically built
shadow with makeValue and deep-copying the shadow back into a zeroed value
of the original type with setValue reproduces v exactly — including through
the special duration / network-address / URL / email fields, struct fields,
map entries, slice and array elements and pointers.
-/
theorem C2_shadow_roundtrip (t : GoType) (v : GoVal)
    (h : HasType v t) (hc : collOk v = true) : loadRoundTrip t v = v := by
  rw [loadRoundTrip, makeValue_eq]
  exact hasType_roundtrip h hc

/--
C2 (witness): the amended round-trip theorem applied to a concrete instance
exercising every supported shape and all four special types.
-/
theorem C2_witness : loadRoundTrip sampleT sampleV = sampleV :=
  C2_shadow_roundtrip sampleT sampleV sampleV_hasType (by rfl)

/--
C3: setValue always stores a freshly allocated destination container for a
source map or slice, of the source's length: a nil source map yields the
empty non-nil map, a nil source slice yields the empty non-nil slice, a
non-nil source yields the recursively copied entries (same length); and
consequently the full load round trip leaves every map-typed and
slice-typed position it reaches non-nil, for every well-typed value.
-/
theorem C3_fresh_collections :
    (∀ (tk te : GoType) (u : GoVal),
      setValue (.map tk te) u (.vmap none) = .vmap (some [])) ∧
    (∀ (te : GoType) (u : GoVal),
      setValue (.slice te) u (.vslice none) = .vslice (some [])) ∧
    (∀ (tk te : GoType) (u : GoVal) (es : List (GoVal × GoVal)),
      setValue (.map tk te) u (.vmap (some es)) = .vmap (some (setMapEntries tk te es)) ∧
      (setMapEntries tk te es).length = es.length) ∧
    (∀ (te : GoType) (u : GoVal) (xs : List GoVal),
      setValue (.slice te) u (.vslice (some xs)) = .vslice (some (setSliceElems te xs)) ∧
      (setSliceElems te xs).length = xs.length) ∧
    (∀ (t : GoType) (v : GoVal), HasType v t → collOk (loadRoundTrip t v) = true) := by
  refine ⟨fun tk te u => rfl, fun te u => rfl,
    fun tk te u es => ⟨rfl, setMapEntries_length tk te es⟩,
    fun te u xs => ⟨rfl, setSliceElems_length te xs⟩,
    fun t v h => ?_⟩
  rw [loadRoundTrip, makeValue_eq]
  exact hasType_collFresh h

/--
C3 (witness): the freshness theorem applied to a concrete value whose map,
slice and pointer fields are all nil: after the load round trip the result
contains no nil collection.
-/
theorem C3_witness : collOk (loadRoundTrip nilSampleT nilSampleV) = true :=
  C3_fresh_collections.2.2.2.2 nilSampleT nilSampleV nilSampleV_hasType

/-!
Snakecase path-key transform.

The snakecase implementation itself is not part of the sources here (only
its test vectors and its callers are), so the transform is modelled from
the specification: word-boundary splitting with underscores, with the
boundaries pinned down by the repository's own test vectors (a word starts
at an upper-case letter after a lower-case letter or digit, at the last
upper-case letter of an upper-case run followed by a lower-case letter,
and at a letter following a digit); dashes and spaces become underscores;
letters are folded to the requested case.
-/

/-- isUp decides an ASCII upper-case letter. -/
def isUp (c : Char) : Bool := decide (65 ≤ c.toNat ∧ c.toNat ≤ 90)

/-- isLow decides an ASCII lower-case letter. -/
def isLow (c : Char) : Bool := decide (97 ≤ c.toNat ∧ c.toNat ≤ 122)

/-- isDig decides an ASCII digit. -/
def isDig (c : Char) : Bool := decide (48 ≤ c.toNat ∧ c.toNat ≤ 57)

/-- isSep decides a dash or space, which the transform turns into an
underscore. -/
def isSep (c : Char) : Bool := c = '-' || c = ' '

/-- lc folds an ASCII upper-case letter to lower case. -/
def lc (c : Char) : Char := if isUp c then Char.ofNat (c.toNat + 32) else c

/-- uc folds an ASCII lower-case letter to upper case. -/
def uc (c : Char) : Char := if isLow c then Char.ofNat (c.toNat - 32) else c

/-- headIsLow tells whether a character list starts with a lower-case
letter (the look-ahead used for upper-case runs). -/
def headIsLow : List Char → Bool
  | [] => false
  | c :: _ => isLow c

/-- upBoundary decides whether a word boundary is inserted before an
upper-case letter: after a lower-case letter or digit, or inside an
upper-case run whose next character is lower-case. -/
def upBoundary (p : Option Char) (rest : List Char) : Bool :=
  match p with
  | none => false
  | some q => isLow q || isDig q || (isUp q && headIsLow rest)

/-- lowBoundary decides whether a word boundary is inserted before a
lower-case letter: after a digit. -/
def lowBoundary (p : Option Char) : Bool :=
  match p with
  | none => false
  | some q => isDig q

/-- snakeAux is the character-level transform; p is the previous character
of the original input (used for boundary detection). -/
def snakeAux (p : Option Char) : List Char → List Char
  | [] => []
  | c :: cs =>
    if isUp c then
      (if upBoundary p cs then ['_', lc c] else [lc c]) ++ snakeAux (some c) cs
    else if isLow c then
      (if lowBoundary p then ['_', c] else [c]) ++ snakeAux (some c) cs
    else if isSep c then
      '_' :: snakeAux (some c) cs
    else
      c :: snakeAux (some c) cs

/--
Modelled from the spec: snakecase, the repository's word-boundary splitting
underscore-joining lower-casing transform (its source file is absent here;
the definition follows the specification's description and reproduces every
vector of the repository's snakecase tests).
-/
def snakecase (s : String) : String := ⟨snakeAux none s.data⟩

/-- Modelled from the spec: snakecaseLower, the lower-cased variant (the
base transform already folds to lower case). -/
def snakecaseLower (s : String) : String := snakecase s

/-- upperize folds every character of a list to upper case. -/
def upperize (l : List Char) : List Char := l.map uc

/-- Modelled from the spec: snakecaseUpper, the upper-cased
underscore-joined transform used to compute environment keys
(HelloWorld becomes HELLO_WORLD). -/
def snakecaseUpper (s : String) : String := ⟨upperize (snakeAux none s.data)⟩

/-- snakecase_vectors replays every vector of the repository's snakecase
test table against the modelled transform. -/
theorem snakecase_vectors :
    snakecaseLower "" = "" ∧
    snakecaseLower "A" = "a" ∧
    snakecaseLower "HelloWorld" = "hello_world" ∧
    snakecaseLower "HELLOWorld" = "hello_world" ∧
    snakecaseLower "Hello1World2" = "hello1_world2" ∧
    snakecaseLower "123_" = "123_" ∧
    snakecaseLower "_" = "_" ∧
    snakecaseLower "___" = "___" ∧
    snakecaseLower "HELLO_WORLD" = "hello_world" ∧
    snakecaseLower "HelloWORLD" = "hello_world" ∧
    snakecaseLower "test_P_x" = "test_p_x" ∧
    snakecaseLower "__hello_world__" = "__hello_world__" ∧
    snakecaseLower "__Hello_World__" = "__hello_world__" ∧
    snakecaseLower "__Hello__World__" = "__hello__world__" ∧
    snakecaseLower "hello-world" = "hello_world" := by
  decide

theorem char_toNat_inj {c d : Char} (h : c.toNat = d.toNat) : c = d := by
  apply Char.ext
  apply UInt32.ext
  simpa [Char.toNat, UInt32.toNat] using h

theorem toNat_ofNat_le (n : Nat) (h : n ≤ 122) : (Char.ofNat n).toNat = n := by
  have hv : n.isValidChar := Or.inl (by omega)
  rw [Char.ofNat, dif_pos hv]
  rfl

theorem isUp_spec {c : Char} : isUp c = true ↔ 65 ≤ c.toNat ∧ c.toNat ≤ 90 := by
  simp [isUp]

theorem isLow_spec {c : Char} : isLow c = true ↔ 97 ≤ c.toNat ∧ c.toNat ≤ 122 := by
  simp [isLow]

theorem isDig_spec {c : Char} : isDig c = true ↔ 48 ≤ c.toNat ∧ c.toNat ≤ 57 := by
  simp [isDig]

theorem toNat_lc {c : Char} (h : isUp c = true) : (lc c).toNat = c.toNat + 32 := by
  rw [lc, if_pos h]
  exact toNat_ofNat_le _ (by have := isUp_spec.mp h; omega)

theorem toNat_uc {c : Char} (h : isLow c = true) : (uc c).toNat = c.toNat - 32 := by
  rw [uc, if_pos h]
  exact toNat_ofNat_le _ (by have := isLow_spec.mp h; omega)

theorem isLow_lc {c : Char} (h : isUp c = true) : isLow (lc c) = true := by
  rw [isLow_spec, toNat_lc h]
  have := isUp_spec.mp h
  omega

theorem uc_lc {c : Char} (h : isUp c = true) : uc (lc c) = c := by
  apply char_toNat_inj
  rw [toNat_uc (isLow_lc h), toNat_lc h]
  omega

theorem isUp_uc {c : Char} (h : isLow c = true) : isUp (uc c) = true := by
  rw [isUp_spec, toNat_uc h]
  have := isLow_spec.mp h
  omega

theorem lc_uc {c : Char} (h : isLow c = true) : lc (uc c) = c := by
  apply char_toNat_inj
  rw [toNat_lc (isUp_uc h), toNat_uc h]
  have := isLow_spec.mp h
  omega

theorem uc_of_not_low {c : Char} (h : isLow c = false) : uc c = c := by
  rw [uc, if_neg (by simp [h])]

theorem isLow_uc (c : Char) : isLow (uc c) = false := by
  by_cases h : isLow c = true
  · rw [Bool.eq_false_iff]
    intro hlow
    have h1 := isLow_spec.mp h
    have h2 := isLow_spec.mp hlow
    rw [toNat_uc h] at h2
    omega
  · rw [uc_of_not_low (Bool.eq_false_iff.mpr h)]
    exact Bool.eq_false_iff.mpr h

theorem isDig_uc (c : Char) : isDig (uc c) = isDig c := by
  by_cases h : isLow c = true
  · have h1 := isLow_spec.mp h
    have hd : isDig c = false := by
      rw [Bool.eq_false_iff]
      intro hc
      have := isDig_spec.mp hc
      omega
    rw [hd, Bool.eq_false_iff]
    intro hc
    have := isDig_spec.mp hc
    rw [toNat_uc h] at this
    omega
  · rw [uc_of_not_low (Bool.eq_false_iff.mpr h)]

theorem not_dig_of_up {c : Char} (h : isUp c = true) : isDig c = false := by
  rw [Bool.eq_false_iff]
  intro hc
  have := isDig_spec.mp hc
  have := isUp_spec.mp h
  omega

theorem not_dig_of_low {c : Char} (h : isLow c = true) : isDig c = false := by
  rw [Bool.eq_false_iff]
  intro hc
  have := isDig_spec.mp hc
  have := isLow_spec.mp h
  omega

theorem not_low_of_up {c : Char} (h : isUp c = true) : isLow c = false := by
  rw [Bool.eq_false_iff]
  intro hc
  have := isLow_spec.mp hc
  have := isUp_spec.mp h
  omega

theorem isSep_cases {c : Char} (h : isSep c = true) : c = '-' ∨ c = ' ' := by
  rcases Bool.or_eq_true_iff.mp h with h1 | h1
  · exact Or.inl (by simpa using h1)
  · exact Or.inr (by simpa using h1)

theorem not_dig_of_sep {c : Char} (h : isSep c = true) : isDig c = false := by
  rcases isSep_cases h with rfl | rfl <;> decide

theorem headIsLow_upperize (l : List Char) : headIsLow (upperize l) = false := by
  cases l with
  | nil => rfl
  | cons a l => exact isLow_uc a

/-- PrevRel relates the previous original character of the first pass with
the previous character the second pass sees at the same point: the latter
is never lower-case and is a digit exactly when the former is. -/
def PrevRel : Option Char → Option Char → Prop
  | none, none => True
  | some c, some d => isLow d = false ∧ isDig d = isDig c
  | _, _ => False

theorem snakeAux_up (q : Option Char) (C : Char) (l : List Char)
    (h : isUp C = true) (hb : upBoundary q l = false) :
    snakeAux q (C :: l) = lc C :: snakeAux (some C) l := by
  rw [snakeAux, if_pos h, hb]
  simp

theorem snakeAux_underscore (q : Option Char) (l : List Char) :
    snakeAux q ('_' :: l) = '_' :: snakeAux (some '_') l := by
  rw [snakeAux]
  rw [if_neg (by decide : ¬isUp '_' = true), if_neg (by decide : ¬isLow '_' = true),
    if_neg (by decide : ¬isSep '_' = true)]

theorem snakeAux_other (q : Option Char) (x : Char) (l : List Char)
    (h1 : isUp x = false) (h2 : isLow x = false) (h3 : isSep x = false) :
    snakeAux q (x :: l) = x :: snakeAux (some x) l := by
  rw [snakeAux]
  rw [if_neg (by simp [h1]), if_neg (by simp [h2]), if_neg (by simp [h3])]

theorem upBoundary_after_underscore (l : List Char) :
    upBoundary (some '_') l = false := by
  rw [upBoundary]
  rw [show isLow '_' = false from by decide, show isDig '_' = false from by decide,
    show isUp '_' = false from by decide]
  simp

theorem upBoundary_safe {d : Char} (l : List Char)
    (h1 : isLow d = false) (h2 : isDig d = false) :
    upBoundary (some d) (upperize l) = false := by
  rw [upBoundary, h1, h2, headIsLow_upperize]
  simp

theorem snakeAux_pass2 (cs : List Char) : ∀ (p q : Option Char), PrevRel p q →
    snakeAux q (upperize (snakeAux p cs)) = snakeAux p cs := by
  induction cs with
  | nil => intro p q _; rfl
  | cons c cs ih =>
    intro p q hrel
    by_cases hu : isUp c = true
    · rw [snakeAux, if_pos hu]
      have hrel2 : PrevRel (some c) (some c) :=
        ⟨not_low_of_up hu, rfl⟩
      by_cases hb : upBoundary p cs = true
      · rw [if_pos hb]
        show snakeAux q ('_' :: uc (lc c) :: upperize (snakeAux (some c) cs)) = _
        rw [uc_lc hu, snakeAux_underscore,
          snakeAux_up (some '_') c _ hu (upBoundary_after_underscore _),
          ih (some c) (some c) hrel2]
        rfl
      · rw [if_neg hb]
        show snakeAux q (uc (lc c) :: upperize (snakeAux (some c) cs)) = _
        rw [uc_lc hu]
        have hq : upBoundary q (upperize (snakeAux (some c) cs)) = false := by
          cases p with
          | none =>
            cases q with
            | none => rfl
            | some d => exact hrel.elim
          | some cp =>
            cases q with
            | none => exact hrel.elim
            | some d =>
              obtain ⟨hd1, hd2⟩ := hrel
              rw [upBoundary] at hb
              simp only [Bool.or_eq_true, not_or, Bool.not_eq_true] at hb
              exact upBoundary_safe _ hd1 (hd2.trans hb.1.2)
        rw [snakeAux_up q c _ hu hq, ih (some c) (some c) hrel2]
        rfl
    · by_cases hl : isLow c = true
      · rw [snakeAux, if_neg (by simp [hu]), if_pos hl]
        have hrel2 : PrevRel (some c) (some (uc c)) :=
          ⟨isLow_uc c, isDig_uc c⟩
        by_cases hb : lowBoundary p = true
        · rw [if_pos hb]
          show snakeAux q ('_' :: uc c :: upperize (snakeAux (some c) cs)) = _
          rw [snakeAux_underscore,
            snakeAux_up (some '_') (uc c) _ (isUp_uc hl) (upBoundary_after_underscore _),
            lc_uc hl, ih (some c) (some (uc c)) hrel2]
          rfl
        · rw [if_neg hb]
          show snakeAux q (uc c :: upperize (snakeAux (some c) cs)) = _
          have hq : upBoundary q (upperize (snakeAux (some c) cs)) = false := by
            cases p with
            | none =>
              cases q with
              | none => rfl
              | some d => exact hrel.elim
            | some cp =>
              cases q with
              | none => exact hrel.elim
              | some d =>
                obtain ⟨hd1, hd2⟩ := hrel
                rw [lowBoundary] at hb
                simp only [Bool.not_eq_true] at hb
                exact upBoundary_safe _ hd1 (hd2.trans hb)
          rw [snakeAux_up q (uc c) _ (isUp_uc hl) hq, lc_uc hl,
            ih (some c) (some (uc c)) hrel2]
          rfl
      · by_cases hsep : isSep c = true
        · rw [snakeAux, if_neg (by simp [hu]), if_neg (by simp [hl]), if_pos hsep]
          have hrel2 : PrevRel (some c) (some '_') := by
            refine ⟨by decide, ?_⟩
            rw [not_dig_of_sep hsep]
            decide
          show snakeAux q ('_' :: upperize (snakeAux (some c) cs)) = _
          rw [snakeAux_underscore, ih (some c) (some '_') hrel2]
        · rw [snakeAux, if_neg (by simp [hu]), if_neg (by simp [hl]), if_neg (by simp [hsep])]
          have hlf : isLow c = false := by simp [hl]
          have hrel2 : PrevRel (some c) (some c) := ⟨hlf, rfl⟩
          show snakeAux q (uc c :: upperize (snakeAux (some c) cs)) = _
          rw [uc_of_not_low hlf,
            snakeAux_other q c _ (by simp [hu]) hlf (by simp [hsep]),
            ih (some c) (some c) hrel2]

/--
C9: the upper-cased underscore-joined path-key transform used for
environment keys is idempotent on its own outputs: applying snakecaseUpper
to snakecaseUpper s returns snakecaseUpper s unchanged, for every string;
in particular both HelloWorld and HELLO_WORLD map to HELLO_WORLD.
-/
theorem C9_snakecaseUpper_idempotent :
    (∀ s : String, snakecaseUpper (snakecaseUpper s) = snakecaseUpper s) ∧
    snakecaseUpper "HelloWorld" = "HELLO_WORLD" ∧
    snakecaseUpper "HELLO_WORLD" = "HELLO_WORLD" := by
  refine ⟨fun s => ?_, by decide, by decide⟩
  show (⟨upperize (snakeAux none (upperize (snakeAux none s.data)))⟩ : String)
      = (⟨upperize (snakeAux none s.data)⟩ : String)
  rw [snakeAux_pass2 s.data none none trivial]

/-!
Source merge engine: the Source implementations of source.go and the
orchestration of Loader.Load / Loader.load.  External collaborators (the
standard flag package, the yaml codec, template rendering, file reading)
are modelled at their boundaries as injected functions, as the
specification prescribes.
-/

/-- Command mirrors the loader's Command struct: a name and a help message. -/
structure Command where
  name : String
  help : String

/--
FileSource mirrors the fileSource struct of source.go.  readFile stands for
the injected byte-reading callback, render for template.Parse followed by
template.Execute against the configured vars, and unmarshal for the
injected decoder writing into the destination; all three are external
collaborators modelled as fallible functions.
-/
structure FileSource (Cfg : Type) where
  flag : String
  path : String
  readFile : String → Except String String
  render : String → Except String String
  unmarshal : String → Cfg → Except String Cfg

/-- FileSource.Load mirrors fileSource.Load: an empty path returns a nil
error at once (no read, no render, no decode); otherwise the file is read,
template-rendered and decoded into the destination, propagating the first
error. -/
def FileSource.Load {Cfg : Type} (f : FileSource Cfg) (dst : Cfg) : Except String Cfg :=
  if f.path.length = 0 then .ok dst
  else
    match f.readFile f.path with
    | .error e => .error e
    | .ok b =>
      match f.render b with
      | .error e => .error e
      | .ok buf => f.unmarshal buf dst

/-- FileSource.Set mirrors fileSource.Set, the flag.Value write that stores
the file location. -/
def FileSource.Set {Cfg : Type} (f : FileSource Cfg) (s : String) : FileSource Cfg :=
  { f with path := s }

/-- goHasPrefix models strings.HasPrefix over the character sequence. -/
def goHasPrefix (s p : String) : Bool := p.data.isPrefixOf s.data

/-- goDrop models the Go string slicing kv[n:]. -/
def goDrop (s : String) (n : Nat) : String := ⟨s.data.drop n⟩

/--
EnvEntry mirrors the entry record NewEnvSource builds while scanning the
destination's fields: the computed key (the upper snakecase of the
underscore-joined path, with a trailing = sign) and the field's flagValue
handle, modelled at the boundary as the decode-into-the-field function
(flagValue.Set, a yaml unmarshal into the bound value).
-/
structure EnvEntry (Cfg : Type) where
  key : String
  set : String → Cfg → Except String Cfg

/-- envKey computes the key NewEnvSource stores for a scanned field path. -/
def envKey (scanKey : String) : String := snakecaseUpper scanKey ++ "="

/-- envLoadEntry mirrors the inner loop of NewEnvSource's Load closure: the
first environment string that starts with the entry's key has the text
after the key decoded into the field, and the search stops there; with no
match the field is left untouched. -/
def envLoadEntry {Cfg : Type} (env : List String) (e : EnvEntry Cfg) (cfg : Cfg) :
    Except String Cfg :=
  match env.find? (fun kv => goHasPrefix kv e.key) with
  | some kv => e.set (goDrop kv e.key.length) cfg
  | none => .ok cfg

/-- envSourceLoad mirrors the Load closure returned by NewEnvSource: with a
non-empty environment every scanned entry is matched against the
environment in order, a decode error aborting the load; an empty
environment is a no-op.  The entry list stands for the scanFields pass over
the destination. -/
def envSourceLoad {Cfg : Type} (entries : List (EnvEntry Cfg)) (env : List String)
    (cfg : Cfg) : Except String Cfg :=
  if env.isEmpty then .ok cfg
  else entries.foldlM (fun c e => envLoadEntry env e c) cfg

/-- FlagSpec is one flag registered on the loader's flag set: the flag name
(a field path) and the flag.Value Set function writing into the bound
field (flagValue.Set, a yaml decode into the field). -/
structure FlagSpec (Sh : Type) where
  name : String
  set : String → Sh → Except String Sh

/-- splitFlagToken splits a flag token (after the dash) at the first equal
sign: the flag name, and the inline value when one is present. -/
def splitFlagToken : List Char → List Char × Option (List Char)
  | [] => ([], none)
  | '=' :: rest => ([], some rest)
  | c :: rest =>
    let (n, v) := splitFlagToken rest
    (c :: n, v)

/--
flagParse models the standard library flag parsing (an external
collaborator) at its boundary, for the argument shapes the claims use: a
leading dash introduces a flag, written -name value or -name=value;
parsing stops at the first non-dash argument, which starts the leftover
arguments; an unknown flag or a missing value is an error.  Flag writes
are plain overwrites, so parsing the same arguments twice applies the same
writes twice.
-/
def flagParse {Sh : Type} (flags : List (FlagSpec Sh)) :
    List String → Sh → Except String (Sh × List String)
  | [], sh => .ok (sh, [])
  | a :: rest, sh =>
    if goHasPrefix a "-" then
      match splitFlagToken (a.data.drop 1) with
      | (n, none) =>
        match rest with
        | [] => .error ("missing value for " ++ a)
        | v :: rest' =>
          match flags.find? (fun f => f.name.data == n) with
          | none => .error ("flag provided but not defined: " ++ a)
          | some f =>
            match f.set v sh with
            | .error e => .error e
            | .ok sh' => flagParse flags rest' sh'
      | (n, some v) =>
        match flags.find? (fun f => f.name.data == n) with
        | none => .error ("flag provided but not defined: " ++ a)
        | some f =>
          match f.set (⟨v⟩ : String) sh with
          | .error e => .error e
          | .ok sh' => flagParse flags rest sh'
    else .ok (sh, a :: rest)

/-- loadSources runs each configured source in configured order against the
shadow value, aborting on the first error (the source loop of
Loader.load). -/
def loadSources {Sh : Type} : List (Sh → Except String Sh) → Sh → Except String Sh
  | [], sh => .ok sh
  | src :: rest, sh =>
    match src sh with
    | .error e => .error e
    | .ok sh' => loadSources rest sh'

/--
loadSkeleton mirrors Loader.load: the flag set parses the arguments a
first time (so FlagSource sources get their values), the configured
sources load in order, and the same arguments are parsed a second time so
that command-line values overwrite whatever the sources loaded; the
leftover arguments of the flag set are returned with the result.
-/
def loadSkeleton {Sh : Type}
    (parse : List String → Sh → Except String (Sh × List String))
    (sources : List (Sh → Except String Sh)) (args : List String) (sh : Sh) :
    Except String (Sh × List String) :=
  match parse args sh with
  | .error e => .error e
  | .ok (sh1, _) =>
    match loadSources sources sh1 with
    | .error e => .error e
    | .ok sh2 => parse args sh2

/--
LoaderLoad mirrors the command phase and the value path of Loader.Load:
with a non-empty command list the first argument must name a declared
command — otherwise the load fails with "missing command" or
"unknown command: ..." before any flag parsing or source runs — and the
matched name is returned while loading proceeds over the remaining
arguments.  The configuration value is copied into its dynamically built
shadow (mkValue, i.e. makeValue), the merge runs over the shadow, and the
merged shadow is deep-copied back into the zeroed original (setBack,
i.e. setZero followed by setValue).  The validator pass, an external
collaborator that never changes the value, is not modelled.
-/
def LoaderLoad {Cfg Sh : Type} (commands : List Command) (argsIn : List String)
    (parse : List String → Sh → Except String (Sh × List String))
    (sources : List (Sh → Except String Sh))
    (mkValue : Cfg → Sh) (setBack : Sh → Cfg) (cfg : Cfg) :
    Except String (String × List String × Cfg) :=
  match commands with
  | [] =>
    match loadSkeleton parse sources argsIn (mkValue cfg) with
    | .error e => .error e
    | .ok (sh, leftover) => .ok ("", leftover, setBack sh)
  | _ :: _ =>
    match argsIn with
    | [] => .error "missing command"
    | a :: rest =>
      if commands.any (fun c => c.name == a) then
        match loadSkeleton parse sources rest (mkValue cfg) with
        | .error e => .error e
        | .ok (sh, leftover) => .ok (a, leftover, setBack sh)
      else .error ("unknown command: " ++ a)

/-- digitVal reads one decimal digit. -/
def digitVal (c : Char) : Option Nat := if isDig c then some (c.toNat - 48) else none

/-- digitsAux folds decimal digits into a number, failing on the first
non-digit. -/
def digitsAux : Nat → List Char → Option Nat
  | acc, [] => some acc
  | acc, c :: cs =>
    match digitVal c with
    | some d => digitsAux (acc * 10 + d) cs
    | none => none

/-- goParseInt models the integer decoding the yaml codec performs on a
flag or environment value bound to an int field (decimal digits with an
optional leading minus sign). -/
def goParseInt (s : String) : Option Int :=
  match s.data with
  | [] => none
  | '-' :: c :: cs => (digitsAux 0 (c :: cs)).map (fun n => -(n : Int))
  | '-' :: [] => none
  | cs => (digitsAux 0 cs).map (fun n => (n : Int))

/-- setIntField is the flagValue.Set boundary for the single-int-field test
schema: the text decodes into field A of the shadow struct, or the decode
fails. -/
def setIntField (s : String) (_v : GoVal) : Except String GoVal :=
  match goParseInt s with
  | some n => .ok (.vstruct [.vint n])
  | none => .error ("invalid integer: " ++ s)

/-- schemaA is the schema of the merge-precedence scenario: a struct with a
single integer field A. -/
def schemaA : GoType := .struct [.int]

/-- flagsA is the flag set newFlagSet builds for schemaA: one flag named A
bound to the field. -/
def flagsA : List (FlagSpec GoVal) := [⟨"A", setIntField⟩]

/-- entriesA is the entry list NewEnvSource builds for schemaA under the
loader name test: the scanned path test_A gives the key TEST_A=. -/
def entriesA : List (EnvEntry GoVal) := [⟨envKey "test_A", setIntField⟩]

/-- fileA42 is the file source of the scenario: a SourceFunc whose yaml
document sets A to 42. -/
def fileA42 : GoVal → Except String GoVal := fun _ => .ok (.vstruct [.vint 42])

/-- fileEmpty is a file source whose document carries no entry for A. -/
def fileEmpty : GoVal → Except String GoVal := fun v => .ok v

/-- setBackA copies the merged shadow back into the zeroed original, as
Loader.Load does after the merge (setZero followed by setValue). -/
def setBackA : GoVal → GoVal := fun sh => setValue schemaA (zero schemaA) sh

/--
C4: a file source whose path was never set (the path string is empty)
loads as a no-op: FileSource.Load returns a nil error and an unchanged
destination, whatever the injected read, render and decode functions would
do — so no file read, template rendering or decode takes place.
-/
theorem C4_fileSource_noop :
    ∀ (Cfg : Type) (f : FileSource Cfg) (dst : Cfg),
      f.path = "" → f.Load dst = .ok dst := by
  intro Cfg f dst h
  rw [FileSource.Load, if_pos (by simp [h])]

/-- errFileSource is a file source with an unset path whose callbacks all
fail, witnessing that none of them runs when the path is empty. -/
def errFileSource : FileSource Nat :=
  ⟨"config-file", "", fun _ => .error "read must not happen",
    fun _ => .error "render must not happen", fun _ _ => .error "decode must not happen"⟩

/--
C4 (witness): the no-op theorem applied to a concrete source whose
callbacks would all fail if invoked.
-/
theorem C4_witness : errFileSource.Load 5 = .ok 5 :=
  C4_fileSource_noop Nat errFileSource 5 rfl

/--
C5: with a non-empty command list, an empty argument list fails with
"missing command" and an unmatched first argument fails with
"unknown command: <first-arg>" — in both cases whatever the flag parser
and the sources are, so before any flag parsing or source runs — while a
first argument naming a declared command is returned as cmd and loading
proceeds over the remaining arguments.
-/
theorem C5_command_phase :
    (∀ (Cfg Sh : Type) (cmds : List Command)
      (parse : List String → Sh → Except String (Sh × List String))
      (sources : List (Sh → Except String Sh)) (mkV : Cfg → Sh) (setB : Sh → Cfg)
      (cfg : Cfg), cmds ≠ [] →
      LoaderLoad cmds [] parse sources mkV setB cfg = .error "missing command") ∧
    (∀ (Cfg Sh : Type) (cmds : List Command) (a : String) (rest : List String)
      (parse : List String → Sh → Except String (Sh × List String))
      (sources : List (Sh → Except String Sh)) (mkV : Cfg → Sh) (setB : Sh → Cfg)
      (cfg : Cfg), cmds ≠ [] → (∀ c ∈ cmds, c.name ≠ a) →
      LoaderLoad cmds (a :: rest) parse sources mkV setB cfg
        = .error ("unknown command: " ++ a)) ∧
    (∀ (Cfg Sh : Type) (cmds : List Command) (a : String) (rest : List String)
      (parse : List String → Sh → Except String (Sh × List String))
      (sources : List (Sh → Except String Sh)) (mkV : Cfg → Sh) (setB : Sh → Cfg)
      (cfg : Cfg), cmds.any (fun c => c.name == a) = true →
      LoaderLoad cmds (a :: rest) parse sources mkV setB cfg
        = match loadSkeleton parse sources rest (mkV cfg) with
          | .error e => .error e
          | .ok (sh, leftover) => .ok (a, leftover, setB sh)) := by
  refine ⟨?_, ?_, ?_⟩
  · intro Cfg Sh cmds parse sources mkV setB cfg hne
    cases cmds with
    | nil => exact absurd rfl hne
    | cons c cs => rfl
  · intro Cfg Sh cmds a rest parse sources mkV setB cfg hne hno
    cases cmds with
    | nil => exact absurd rfl hne
    | cons c cs =>
      show (if (c :: cs).any (fun c => c.name == a) then _ else _) = _
      rw [if_neg ?_]
      simp only [List.any_eq_true, not_exists, not_and]
      intro x hx
      simp [hno x hx]
  · intro Cfg Sh cmds a rest parse sources mkV setB cfg hany
    cases cmds with
    | nil => simp at hany
    | cons c cs =>
      show (if (c :: cs).any (fun c => c.name == a) then _ else _) = _
      rw [if_pos hany]

/--
C5 (witness): the command-phase theorem applied to the loader of the
repository's command test: commands run and version, a trivial flag parse
and no sources.
-/
theorem C5_witness :
    @LoaderLoad Nat Nat [⟨"run", ""⟩, ⟨"version", ""⟩] []
      (fun args sh => .ok (sh, args)) [] id id 0 = .error "missing command" ∧
    @LoaderLoad Nat Nat [⟨"run", ""⟩, ⟨"version", ""⟩] ["test"]
      (fun args sh => .ok (sh, args)) [] id id 0 = .error ("unknown command: " ++ "test") ∧
    @LoaderLoad Nat Nat [⟨"run", ""⟩, ⟨"version", ""⟩] ["run", "A", "B", "C"]
      (fun args sh => .ok (sh, args)) [] id id 0
      = match loadSkeleton (fun args sh => .ok (sh, args)) [] ["A", "B", "C"] (id 0) with
        | .error e => .error e
        | .ok (sh, leftover) => .ok ("run", leftover, id sh) :=
  ⟨C5_command_phase.1 Nat Nat _ _ _ _ _ _ (by simp),
   C5_command_phase.2.1 Nat Nat _ "test" [] _ _ _ _ _ (by simp) (by decide),
   C5_command_phase.2.2 Nat Nat _ "run" ["A", "B", "C"] _ _ _ _ _ (by decide)⟩

theorem flagParseA_eval (sh : GoVal) :
    flagParse flagsA ["-A", "99"] sh = .ok (.vstruct [.vint 99], []) := rfl

/--
C1: merge precedence for a schema with integer field A under loader name
test.  With a file source supplying A=42, then an environment source
supplying A=7, and the command line setting -A 99, the load produces
A=99; dropping the CLI flag produces A=7; with no file entry, no
environment entry and no flag the schema's declared default d survives
the whole load.  In general, because the same arguments are parsed again
after every source has loaded, whenever the skeleton load with arguments
-A 99 succeeds its result has A=99, for every list of configured sources
and every start value: the command line is the last write.
-/
theorem C1_merge_precedence :
    (∀ d : Int,
      LoaderLoad [] ["-A", "99"] (flagParse flagsA)
        [fileA42, envSourceLoad entriesA ["TEST_A=7"]]
        (makeValue schemaA) setBackA (.vstruct [.vint d])
      = .ok ("", [], .vstruct [.vint 99])) ∧
    (∀ d : Int,
      LoaderLoad [] [] (flagParse flagsA)
        [fileA42, envSourceLoad entriesA ["TEST_A=7"]]
        (makeValue schemaA) setBackA (.vstruct [.vint d])
      = .ok ("", [], .vstruct [.vint 7])) ∧
    (∀ d : Int,
      LoaderLoad [] [] (flagParse flagsA)
        [fileEmpty, envSourceLoad entriesA []]
        (makeValue schemaA) setBackA (.vstruct [.vint d])
      = .ok ("", [], .vstruct [.vint d])) ∧
    (∀ (sources : List (GoVal → Except String GoVal)) (sh res : GoVal) (lo : List String),
      loadSkeleton (flagParse flagsA) sources ["-A", "99"] sh = .ok (res, lo) →
      res = .vstruct [.vint 99]) := by
  refine ⟨fun d => rfl, fun d => rfl, fun d => rfl, ?_⟩
  intro sources sh res lo h
  unfold loadSkeleton at h
  simp only [flagParseA_eval] at h
  cases hs : loadSources sources (.vstruct [.vint 99]) with
  | error e => rw [hs] at h; simp at h
  | ok sh2 =>
    rw [hs] at h
    simp only [flagParseA_eval, Except.ok.injEq, Prod.mk.injEq] at h
    exact h.1.symm

/--
C1 (witness): the last-write theorem applied to a concrete source list and
start value for which the skeleton load computes to a success.
-/
theorem C1_witness : (GoVal.vstruct [GoVal.vint 99]) = .vstruct [.vint 99] :=
  C1_merge_precedence.2.2.2 [fileA42, envSourceLoad entriesA ["TEST_A=7"]]
    (.vstruct [.vint 0]) _ _ rfl

theorem goHasPrefix_append (k v : String) : goHasPrefix (k ++ v) k = true := by
  rw [goHasPrefix, String.data_append]
  exact List.isPrefixOf_iff_prefix.mpr (List.prefix_append k.data v.data)

theorem goDrop_append (k v : String) : goDrop (k ++ v) k.length = v := by
  rw [goDrop, String.data_append]
  rw [show k.length = k.data.length from rfl, List.drop_left]

/--
C10: for each scanned field, the environment source applies the value of
the first entry of its env list whose text starts with the field's
computed key, and stops searching for that field: with no match among the
earlier entries, the first entry carrying the key is decoded and every
later entry — duplicates of the same key included — is ignored, whatever
it holds.  Concretely, two TEST_A entries make the earlier one win.
-/
theorem C10_env_first_match :
    (∀ (Cfg : Type) (e : EnvEntry Cfg) (cfg : Cfg) (env1 env2 : List String) (v : String),
      (∀ kv ∈ env1, goHasPrefix kv e.key = false) →
      envLoadEntry (env1 ++ (e.key ++ v) :: env2) e cfg = e.set v cfg) ∧
    envSourceLoad entriesA ["TEST_A=1", "TEST_A=2"] (.vstruct [.vint 0])
      = .ok (.vstruct [.vint 1]) := by
  refine ⟨?_, rfl⟩
  intro Cfg e cfg env1 env2 v hmiss
  have hfind : (env1 ++ (e.key ++ v) :: env2).find? (fun kv => goHasPrefix kv e.key)
      = some (e.key ++ v) := by
    induction env1 with
    | nil =>
      rw [List.nil_append]
      exact List.find?_cons_of_pos env2 (goHasPrefix_append e.key v)
    | cons x env1 ih =>
      rw [List.cons_append,
        List.find?_cons_of_neg _ (by simp [hmiss x (List.mem_cons_self x env1)])]
      exact ih (fun kv hkv => hmiss kv (List.mem_cons_of_mem x hkv))
  rw [envLoadEntry, hfind]
  show e.set (goDrop (e.key ++ v) e.key.length) cfg = e.set v cfg
  rw [goDrop_append]

/--
C10 (witness): the first-match theorem applied to a concrete environment
in which an unrelated entry precedes two entries for the same key: the
earlier TEST_A entry is the one decoded.
-/
theorem C10_witness :
    envLoadEntry (["OTHER=5"] ++ ("TEST_A=" ++ "1") :: ["TEST_A=2"])
      (⟨"TEST_A=", setIntField⟩ : EnvEntry GoVal) (.vstruct [.vint 0])
      = setIntField "1" (.vstruct [.vint 0]) :=
  C10_env_first_match.1 GoVal ⟨"TEST_A=", setIntField⟩ (.vstruct [.vint 0])
    ["OTHER=5"] ["TEST_A=2"] "1" (by decide)

/-!
Node tree model.

The Node implementation (MakeNode, EqualNode, makeNodeStruct, the
scalar/array/map node types) is not among the sources here — only its test
suite is — so the model below follows the specification: a Node is a
scalar (zero or one primitive value), an ordered Array of nodes, or a Map
of named items with unique names; scalar equality is deep equality except
that time values compare by instant across time zones; Array equality is
pairwise in order; Map equality requires equal lengths and, for every item
of one map, an item of the same name and equal value in the other.
-/

/-- Prim models the primitive values a Scalar can hold.  A time value
carries its instant and its zone representation; only the instant takes
part in equality. -/
inductive Prim where
  | pint : Int → Prim
  | pstr : String → Prim
  | pbool : Bool → Prim
  | ptime : Int → String → Prim

/-- eqPrim is deep equality of primitive values, except that time values
compare equal across different zone representations of the same instant. -/
def eqPrim : Prim → Prim → Bool
  | .pint a, .pint b => a == b
  | .pstr a, .pstr b => a == b
  | .pbool a, .pbool b => a == b
  | .ptime i _, .ptime j _ => i == j
  | _, _ => false

/-- Modelled from the spec: Node, the generic discriminated value — a
Scalar holding zero or one primitive, an ordered Array of nodes, or a Map
of (name, help, value) items. -/
inductive Node where
  | scalar : Option Prim → Node
  | array : List Node → Node
  | map : List (String × String × Node) → Node

/-- MapItem abbreviates a named map item: name, help text, value. -/
def MapItem : Type := String × String × Node

/-- itemName reads a map item's name. -/
def itemName (it : String × String × Node) : String := it.1

/-- lookupItem finds the first item with the given name and returns its
value (the Map.Item accessor). -/
def lookupItem (n : String) : List (String × String × Node) → Option Node
  | [] => none
  | (n2, _, v2) :: rest => if n2 == n then some v2 else lookupItem n rest

mutual

/-- Modelled from the spec: eqNode, structural Node equality — identical
kind, pairwise-equal Array children in order, and for Maps identical
length with every item found by name in the other map with an equal
value. -/
def eqNode : Node → Node → Bool
  | .scalar s1, .scalar s2 =>
    match s1, s2 with
    | none, none => true
    | some p, some q => eqPrim p q
    | _, _ => false
  | .array xs, .array ys => eqNodeList xs ys
  | .map xs, .map ys => (xs.length == ys.length) && eqItems xs ys
  | _, _ => false
termination_by structural a => a

/-- eqNodeList is pairwise Array-children equality, false on a length
mismatch. -/
def eqNodeList : List Node → List Node → Bool
  | [], [] => true
  | x :: xs, y :: ys => eqNode x y && eqNodeList xs ys
  | _, _ => false
termination_by structural xs _ => xs

/-- eqItems checks that every item of the first map is present by name in
the second with an equal value. -/
def eqItems : List (String × String × Node) → List (String × String × Node) → Bool
  | [], _ => true
  | (n, _, v) :: rest, ys =>
    (match lookupItem n ys with
     | some v2 => eqNode v v2
     | none => false) && eqItems rest ys
termination_by structural xs _ => xs

end

/-- Modelled from the spec: EqualNode — nil versus non-nil Node of any kind
is unequal, two nil nodes are equal, two present nodes compare
structurally. -/
def EqualNode : Option Node → Option Node → Bool
  | none, none => true
  | some a, some b => eqNode a b
  | _, _ => false

/-- namesNodup decides that a name list has no duplicate (the Map
invariant: duplicate names are a construction-time error). -/
def namesNodup : List String → Bool
  | [] => true
  | n :: rest => (!rest.contains n) && namesNodup rest

mutual

/-- wfNode decides the specification's Node invariant: every Map reachable
in the tree has pairwise-distinct item names. -/
def wfNode : Node → Bool
  | .scalar _ => true
  | .array xs => wfNodeList xs
  | .map xs => namesNodup (xs.map itemName) && wfItems xs
termination_by structural n => n

/-- wfNodeList checks wfNode on every Array child. -/
def wfNodeList : List Node → Bool
  | [] => true
  | x :: xs => wfNode x && wfNodeList xs
termination_by structural xs => xs

/-- wfItems checks wfNode on every Map item value. -/
def wfItems : List (String × String × Node) → Bool
  | [] => true
  | (_, _, v) :: rest => wfNode v && wfItems rest
termination_by structural xs => xs

end

theorem bool_eq_of_iff {a b : Bool} (h : a = true ↔ b = true) : a = b := by
  cases a <;> cases b <;> simp_all

theorem eqPrim_refl (p : Prim) : eqPrim p p = true := by
  cases p <;> simp [eqPrim]

theorem eqPrim_symm (p q : Prim) : eqPrim p q = eqPrim q p := by
  cases p <;> cases q <;> simp [eqPrim] <;> exact eq_comm

theorem lookupItem_self :
    ∀ (xs : List (String × String × Node)) (n h : String) (v : Node),
      (n, h, v) ∈ xs → namesNodup (xs.map itemName) = true →
      lookupItem n xs = some v := by
  intro xs
  induction xs with
  | nil => intro n h v hm _; cases hm
  | cons hd rest ih =>
    intro n h v hm hnd
    obtain ⟨n2, h2, v2⟩ := hd
    rw [List.map_cons, namesNodup] at hnd
    have hnd2 := band_true hnd
    rcases List.mem_cons.mp hm with heq | hm2
    · injection heq with e1 e2
      injection e2 with e3 e4
      subst e1
      subst e4
      rw [lookupItem]
      simp
    · have hne : n2 ≠ n := by
        intro hcontr
        subst hcontr
        have hmm : n2 ∈ rest.map itemName := List.mem_map.mpr ⟨(n2, h, v), hm2, rfl⟩
        have hc : (rest.map itemName).contains n2 = true := List.elem_eq_true_of_mem hmm
        have hb1 : (!(rest.map itemName).contains n2) = true := hnd2.1
        rw [hc] at hb1
        simp at hb1
      rw [lookupItem, if_neg (by simp [hne])]
      exact ih n h v hm2 hnd2.2

theorem lookupItem_mem :
    ∀ (xs : List (String × String × Node)) (n : String) (v : Node),
      lookupItem n xs = some v → ∃ h, (n, h, v) ∈ xs := by
  intro xs
  induction xs with
  | nil => intro n v hl; simp [lookupItem] at hl
  | cons hd rest ih =>
    intro n v hl
    obtain ⟨n2, h2, v2⟩ := hd
    rw [lookupItem] at hl
    by_cases he : n2 == n
    · rw [if_pos he] at hl
      injection hl with hv
      have hn : n2 = n := by simpa using he
      subst hn
      subst hv
      exact ⟨h2, List.mem_cons_self _ _⟩
    · rw [if_neg he] at hl
      obtain ⟨h, hm⟩ := ih n v hl
      exact ⟨h, List.mem_cons_of_mem _ hm⟩

theorem lookupItem_none_iff :
    ∀ (xs : List (String × String × Node)) (n : String),
      lookupItem n xs = none ↔ n ∉ xs.map itemName := by
  intro xs
  induction xs with
  | nil => intro n; simp [lookupItem]
  | cons hd rest ih =>
    intro n
    obtain ⟨n2, h2, v2⟩ := hd
    rw [lookupItem, List.map_cons]
    by_cases he : n2 == n
    · rw [if_pos he]
      simp [itemName, show n2 = n from by simpa using he]
    · rw [if_neg he]
      simp only [List.mem_cons, not_or, ih]
      constructor
      · intro hn
        refine ⟨fun hcontr => ?_, hn⟩
        have hne : ¬n2 = n := by simpa using he
        exact hne (by simpa [itemName] using hcontr.symm)
      · intro hn
        exact hn.2

theorem eqItems_spec :
    ∀ (xs ys : List (String × String × Node)),
      eqItems xs ys = true ↔
      ∀ it ∈ xs, ∃ v2, lookupItem (itemName it) ys = some v2 ∧ eqNode it.2.2 v2 = true := by
  intro xs ys
  induction xs with
  | nil => simp [eqItems]
  | cons hd rest ih =>
    obtain ⟨n, h, v⟩ := hd
    rw [eqItems]
    constructor
    · intro hall
      have hb := band_true hall
      intro it hit
      rcases List.mem_cons.mp hit with rfl | hit2
      · cases hl : lookupItem n ys with
        | none =>
          have hb1 := hb.1
          rw [hl] at hb1
          simp at hb1
        | some v2 =>
          have hb1 := hb.1
          rw [hl] at hb1
          exact ⟨v2, hl, hb1⟩
      · exact ih.mp hb.2 it hit2
    · intro hall
      obtain ⟨v2, hl, he⟩ := hall (n, h, v) (List.mem_cons_self _ _)
      have hl2 : lookupItem n ys = some v2 := hl
      rw [hl2]
      show (eqNode v v2 && eqItems rest ys) = true
      rw [show eqNode v v2 = true from he,
        ih.mpr (fun it hit => hall it (List.mem_cons_of_mem _ hit))]
      rfl

theorem namesNodup_iff : ∀ (l : List String), namesNodup l = true ↔ l.Nodup := by
  intro l
  induction l with
  | nil => simp [namesNodup]
  | cons n rest ih =>
    rw [namesNodup, List.nodup_cons]
    constructor
    · intro hb
      have h2 := band_true hb
      refine ⟨fun hm => ?_, ih.mp h2.2⟩
      have hc : rest.contains n = true := List.elem_eq_true_of_mem hm
      have hb1 := h2.1
      rw [hc] at hb1
      simp at hb1
    · intro hpair
      have hc : rest.contains n = false := by
        by_contra hcontr
        exact hpair.1 (List.mem_of_elem_eq_true (by simpa using hcontr))
      rw [hc, ih.mpr hpair.2]
      rfl

theorem wfItems_mem :
    ∀ (xs : List (String × String × Node)) (it : String × String × Node),
      wfItems xs = true → it ∈ xs → wfNode it.2.2 = true := by
  intro xs
  induction xs with
  | nil => intro it _ hm; cases hm
  | cons hd rest ih =>
    intro it hwf hm
    obtain ⟨n2, h2, v2⟩ := hd
    have hb := band_true hwf
    rcases List.mem_cons.mp hm with rfl | hm2
    · exact hb.1
    · exact ih it hb.2 hm2

theorem wfNodeList_mem :
    ∀ (xs : List Node) (x : Node), wfNodeList xs = true → x ∈ xs → wfNode x = true := by
  intro xs
  induction xs with
  | nil => intro x _ hm; cases hm
  | cons hd rest ih =>
    intro x hwf hm
    have hb := band_true hwf
    rcases List.mem_cons.mp hm with rfl | hm2
    · exact hb.1
    · exact ih x hb.2 hm2

theorem sizeOf_val_lt {xs : List (String × String × Node)}
    {it : String × String × Node} (hit : it ∈ xs) :
    sizeOf it.2.2 < sizeOf (Node.map xs) := by
  obtain ⟨n, h, v⟩ := it
  have h1 := List.sizeOf_lt_of_mem hit
  simp at h1 ⊢
  omega

theorem sizeOf_elem_lt {xs : List Node} {x : Node} (hx : x ∈ xs) :
    sizeOf x < sizeOf (Node.array xs) := by
  have h1 := List.sizeOf_lt_of_mem hx
  simp
  omega

theorem eqNodeList_refl_of (xs : List Node) (h : ∀ x ∈ xs, eqNode x x = true) :
    eqNodeList xs xs = true := by
  induction xs with
  | nil => rfl
  | cons x rest ih =>
    rw [eqNodeList, h x (List.mem_cons_self _ _),
      ih (fun y hy => h y (List.mem_cons_of_mem _ hy))]
    rfl

theorem eqNode_refl_fuel :
    ∀ (k : Nat) (n : Node), sizeOf n ≤ k → wfNode n = true → eqNode n n = true := by
  intro k
  induction k using Nat.strong_induction_on with
  | _ k IH =>
    intro n hsz hwf
    match n with
    | .scalar s =>
      cases s with
      | none => rfl
      | some p => exact eqPrim_refl p
    | .array xs =>
      show eqNodeList xs xs = true
      refine eqNodeList_refl_of xs (fun x hx => ?_)
      have hlt : sizeOf x < k := lt_of_lt_of_le (sizeOf_elem_lt hx) hsz
      exact IH (sizeOf x) hlt x le_rfl (wfNodeList_mem xs x hwf hx)
    | .map xs =>
      show ((xs.length == xs.length) && eqItems xs xs) = true
      have hwf2 : (namesNodup (xs.map itemName) && wfItems xs) = true := hwf
      have hb := band_true hwf2
      rw [show (xs.length == xs.length) = true from by simp, Bool.true_and]
      refine (eqItems_spec xs xs).mpr (fun it hit => ?_)
      obtain ⟨n2, h2, v2⟩ := it
      refine ⟨v2, lookupItem_self xs n2 h2 v2 hit hb.1, ?_⟩
      have hlt : sizeOf v2 < k := lt_of_lt_of_le (sizeOf_val_lt hit) hsz
      exact IH (sizeOf v2) hlt v2 le_rfl (wfItems_mem xs (n2, h2, v2) hb.2 hit)

theorem eqNodeList_symm_of :
    ∀ (xs ys : List Node), (∀ x ∈ xs, ∀ y ∈ ys, eqNode x y = eqNode y x) →
      eqNodeList xs ys = eqNodeList ys xs := by
  intro xs
  induction xs with
  | nil => intro ys _; cases ys <;> rfl
  | cons x rest ih =>
    intro ys hsym
    cases ys with
    | nil => rfl
    | cons y rest2 =>
      rw [eqNodeList, eqNodeList,
        hsym x (List.mem_cons_self _ _) y (List.mem_cons_self _ _),
        ih rest2 (fun a ha b hb =>
          hsym a (List.mem_cons_of_mem _ ha) b (List.mem_cons_of_mem _ hb))]

theorem eqItems_flip (xs ys : List (String × String × Node))
    (hnx : namesNodup (xs.map itemName) = true)
    (hny : namesNodup (ys.map itemName) = true)
    (hlen : xs.length = ys.length)
    (hsymm : ∀ itx ∈ xs, ∀ ity ∈ ys,
      eqNode itx.2.2 ity.2.2 = true → eqNode ity.2.2 itx.2.2 = true)
    (h : eqItems xs ys = true) : eqItems ys xs = true := by
  have hx := (eqItems_spec xs ys).mp h
  have hsub : (xs.map itemName) ⊆ (ys.map itemName) := by
    intro n hn
    obtain ⟨it, hit, rfl⟩ := List.mem_map.mp hn
    obtain ⟨v2, hl, _⟩ := hx it hit
    by_contra hcontr
    have hnone := (lookupItem_none_iff ys (itemName it)).mpr hcontr
    rw [hnone] at hl
    cases hl
  have hnd1 := (namesNodup_iff _).mp hnx
  have hsp := List.subperm_of_subset hnd1 hsub
  have hp := hsp.perm_of_length_le (by simp [hlen])
  have hsub2 : (ys.map itemName) ⊆ (xs.map itemName) := hp.symm.subset
  refine (eqItems_spec ys xs).mpr (fun it hit => ?_)
  obtain ⟨n, h2, w⟩ := it
  have hnmem : n ∈ xs.map itemName :=
    hsub2 (List.mem_map.mpr ⟨(n, h2, w), hit, rfl⟩)
  obtain ⟨itx, hitx, hname⟩ := List.mem_map.mp hnmem
  obtain ⟨nx, hx2, vx⟩ := itx
  have hnn : nx = n := hname
  subst hnn
  have hlx : lookupItem nx xs = some vx := lookupItem_self xs nx hx2 vx hitx hnx
  obtain ⟨v2, hly, heq⟩ := hx (nx, hx2, vx) hitx
  have hly2 : lookupItem nx ys = some w := lookupItem_self ys nx h2 w hit hny
  have hv2 : w = v2 := by
    have := hly2.symm.trans hly
    injection this
  subst hv2
  exact ⟨vx, hlx, hsymm (nx, hx2, vx) hitx (nx, h2, w) hit heq⟩

theorem eqNode_symm_fuel :
    ∀ (k : Nat) (a b : Node), sizeOf a + sizeOf b ≤ k →
      wfNode a = true → wfNode b = true → eqNode a b = eqNode b a := by
  intro k
  induction k using Nat.strong_induction_on with
  | _ k IH =>
    intro a b hsz hwa hwb
    match a, b with
    | .scalar s1, .scalar s2 =>
      cases s1 <;> cases s2 <;> try rfl
      exact eqPrim_symm _ _
    | .scalar _, .array _ => rfl
    | .scalar _, .map _ => rfl
    | .array _, .scalar _ => rfl
    | .array _, .map _ => rfl
    | .map _, .scalar _ => rfl
    | .map _, .array _ => rfl
    | .array xs, .array ys =>
      show eqNodeList xs ys = eqNodeList ys xs
      refine eqNodeList_symm_of xs ys (fun x hx y hy => ?_)
      have hlt : sizeOf x + sizeOf y < k := by
        have h1 := sizeOf_elem_lt hx
        have h2 := sizeOf_elem_lt hy
        omega
      exact IH (sizeOf x + sizeOf y) hlt x y le_rfl
        (wfNodeList_mem xs x hwa hx) (wfNodeList_mem ys y hwb hy)
    | .map xs, .map ys =>
      show ((xs.length == ys.length) && eqItems xs ys)
          = ((ys.length == xs.length) && eqItems ys xs)
      have hwa2 : (namesNodup (xs.map itemName) && wfItems xs) = true := hwa
      have hwb2 : (namesNodup (ys.map itemName) && wfItems ys) = true := hwb
      have hba := band_true hwa2
      have hbb := band_true hwb2
      by_cases hlen : xs.length = ys.length
      · rw [show (xs.length == ys.length) = true from by simp [hlen],
          show (ys.length == xs.length) = true from by simp [hlen],
          Bool.true_and, Bool.true_and]
        have hpt : ∀ itx ∈ xs, ∀ ity ∈ ys,
            eqNode itx.2.2 ity.2.2 = eqNode ity.2.2 itx.2.2 := by
          intro itx hitx ity hity
          have h1 := sizeOf_val_lt hitx
          have h2 := sizeOf_val_lt hity
          exact IH (sizeOf itx.2.2 + sizeOf ity.2.2) (by omega) _ _ le_rfl
            (wfItems_mem xs itx hba.2 hitx) (wfItems_mem ys ity hbb.2 hity)
        refine bool_eq_of_iff ⟨?_, ?_⟩
        · intro h
          refine eqItems_flip xs ys hba.1 hbb.1 hlen ?_ h
          intro itx hx ity hy he
          rw [← hpt itx hx ity hy]
          exact he
        · intro h
          refine eqItems_flip ys xs hbb.1 hba.1 hlen.symm ?_ h
          intro ity hy itx hx he
          rw [hpt itx hx ity hy]
          exact he
      · rw [show (xs.length == ys.length) = false from beq_eq_false_iff_ne.mpr hlen,
          show (ys.length == xs.length) = false from beq_eq_false_iff_ne.mpr (Ne.symm hlen),
          Bool.false_and, Bool.false_and]

/-- wfOpt extends the Node invariant to an optional (possibly nil) node. -/
def wfOpt : Option Node → Bool
  | none => true
  | some n => wfNode n

/--
C8: EqualNode is reflexive on every node satisfying the data model's
invariant (unique names within each Map), symmetric on invariant nodes,
and returns false whenever exactly one of its two arguments is nil and the
other is a node of any kind.
-/
theorem C8_equalNode_props :
    (∀ n : Node, wfNode n = true → EqualNode (some n) (some n) = true) ∧
    (∀ a b : Option Node, wfOpt a = true → wfOpt b = true →
      EqualNode a b = EqualNode b a) ∧
    (∀ n : Node, EqualNode (some n) none = false ∧ EqualNode none (some n) = false) := by
  refine ⟨?_, ?_, fun n => ⟨rfl, rfl⟩⟩
  · intro n hwf
    exact eqNode_refl_fuel (sizeOf n) n le_rfl hwf
  · intro a b hwa hwb
    match a, b with
    | none, none => rfl
    | none, some y => rfl
    | some x, none => rfl
    | some x, some y =>
      exact eqNode_symm_fuel (sizeOf x + sizeOf y) x y le_rfl hwa hwb

/-- exNode is a concrete invariant-satisfying map node used as the C8
witness input. -/
def exNode : Node :=
  .map [("A", "", .scalar (some (.pint 1))),
    ("B", "", .array [.scalar (some (.pstr "x"))]),
    ("C", "", .scalar (some (.ptime 17 "UTC")))]

/--
C8 (witness): the EqualNode properties applied to a concrete node — it
equals itself, comparing it with a differently ordered copy is symmetric,
and comparing it against nil is false both ways.
-/
theorem C8_witness :
    EqualNode (some exNode) (some exNode) = true ∧
    EqualNode (some exNode) none = EqualNode none (some exNode) ∧
    EqualNode (some exNode) none = false :=
  ⟨C8_equalNode_props.1 exNode (by rfl),
   C8_equalNode_props.2.1 (some exNode) none (by rfl) (by rfl),
   (C8_equalNode_props.2.2 exNode).1⟩

/-!
Node construction for struct values, with flattening of embedded fields.
The builder (makeNodeStruct) is also absent from the sources here — only
its tests are — so it is modelled from the specification: fields marked
with the skip tag are dropped, fields marked with the embed tag must be
genuinely anonymous struct fields and have their own items spliced into
the parent with collision detection, and every other field contributes one
item named by its override tag or its identifier.
-/

mutual

/-- NVal models a runtime value being turned into a Node, restricted to
the shapes the embedding claims exercise: scalars and struct values (a
struct carries its type name for error messages). -/
inductive NVal where
  | scalar : Option Prim → NVal
  | strct : String → List SField → NVal

/-- SField models one struct field as the builder sees it: identifier,
optional conf tag, help text, whether the field is anonymous (embedded),
and its value. -/
inductive SField where
  | mk : String → Option String → String → Bool → NVal → SField

end

/-- dupMsg is the panic message for a promoted-name collision; it names
the duplicate and the struct type. -/
def dupMsg (tn n : String) : String :=
  "conf: duplicate node name '" ++ n ++ "' in struct " ++ tn

/-- invalidEmbedMsg is the panic message for an embed tag on a field that
is not an anonymous struct; it names the offending path. -/
def invalidEmbedMsg (tn f : String) : String :=
  "conf: invalid use of tag \"_\" at path " ++ tn ++ "." ++ f

/-- containsName tells whether an item list already carries a name. -/
def containsName (acc : List (String × String × Node)) (n : String) : Bool :=
  match lookupItem n acc with
  | some _ => true
  | none => false

/-- spliceItems splices the items of an embedded struct into the parent's
accumulated items, failing fast on the first name collision. -/
def spliceItems (tn : String) (acc : List (String × String × Node)) :
    List (String × String × Node) → Except String (List (String × String × Node))
  | [] => .ok acc
  | (n, h, v) :: rest =>
    if containsName acc n then .error (dupMsg tn n)
    else spliceItems tn (acc ++ [(n, h, v)]) rest

/-- exBind sequences a fallible step with its continuation (the Go code's
early return on a non-nil error). -/
def exBind {α β : Type} (r : Except String α) (f : α → Except String β) :
    Except String β :=
  match r with
  | .error e => .error e
  | .ok a => f a

/-- mapToNode turns successfully built map items into a Map node. -/
def mapToNode (r : Except String (List (String × String × Node))) : Except String Node :=
  match r with
  | .error e => .error e
  | .ok items => .ok (.map items)

mutual

/-- Modelled from the spec: makeNode — a scalar value becomes a Scalar
node, a struct value becomes the Map of its built items. -/
def makeNode : NVal → Except String Node
  | .scalar p => .ok (.scalar p)
  | .strct tn fs => mapToNode (makeItems tn [] fs)
termination_by structural v => v

/-- makeItems walks the declared fields in order, threading the
accumulated map items through stepField and failing fast on the first
error. -/
def makeItems (tn : String) (acc : List (String × String × Node)) :
    List SField → Except String (List (String × String × Node))
  | [] => .ok acc
  | f :: rest => exBind (stepField tn acc f) (fun acc2 => makeItems tn acc2 rest)
termination_by structural fields => fields

/-- stepField handles one declared field: skip-tagged fields are dropped,
embed-tagged fields are spliced through stepEmbed, and every other field
appends one item named by its override tag or its identifier, its value
built recursively. -/
def stepField (tn : String) (acc : List (String × String × Node)) :
    SField → Except String (List (String × String × Node))
  | .mk gn tag help anon v =>
    if tag = some "-" then .ok acc
    else if tag = some "_" then stepEmbed tn gn acc v anon
    else exBind (makeNode v) (fun node => .ok (acc ++ [(tag.getD gn, help, node)]))
termination_by structural f => f

/-- stepEmbed handles an embed-tagged field: the field must be a genuinely
anonymous struct field — otherwise construction aborts with the
path-qualified message — and its own items are built recursively and
spliced into the parent with collision detection. -/
def stepEmbed (tn gn : String) (acc : List (String × String × Node)) :
    NVal → Bool → Except String (List (String × String × Node))
  | .strct ctn cfs, true =>
    exBind (makeItems ctn [] cfs) (fun citems => spliceItems tn acc citems)
  | _, _ => .error (invalidEmbedMsg tn gn)
termination_by structural v _ => v

end

/-- Modelled from the spec: makeNodeStruct, the Map-item builder for a
struct value of the given type name. -/
def makeNodeStruct (tn : String) (fields : List SField) :
    Except String (List (String × String × Node)) :=
  makeItems tn [] fields

mutual

/-- fieldNames lists, in order, the item names a field list will produce. -/
def fieldNames : List SField → List String
  | [] => []
  | f :: rest => fieldName f ++ fieldNames rest
termination_by structural fields => fields

/-- fieldName lists the item names one field will produce: none for a
skip field, the child struct's flattened names for an embed field, the
override tag or the identifier otherwise. -/
def fieldName : SField → List String
  | .mk gn tag _ _ v =>
    if tag = some "-" then []
    else if tag = some "_" then embedNames v
    else [tag.getD gn]
termination_by structural f => f

/-- embedNames lists the names an embed target contributes: the flattened
names of a struct value, nothing otherwise. -/
def embedNames : NVal → List String
  | .strct _ cfs => fieldNames cfs
  | _ => []
termination_by structural v => v

end

/-- embedTargetOk decides that an embed tag sits on an anonymous struct
field. -/
def embedTargetOk : NVal → Bool → Bool
  | .strct _ _, true => true
  | _, _ => false

mutual

/-- deepOk decides that a value is free of the two construction failure
modes: every embed tag sits on an anonymous struct field, and every
struct's flattened item names are pairwise distinct. -/
def deepOk : NVal → Bool
  | .scalar _ => true
  | .strct _ fs => namesNodup (fieldNames fs) && deepOkFields fs
termination_by structural v => v

/-- deepOkFields checks deepOkField across a field list. -/
def deepOkFields : List SField → Bool
  | [] => true
  | f :: rest => deepOkField f && deepOkFields rest
termination_by structural fields => fields

/-- deepOkField checks one field: skip-tagged fields are never built and
are exempt; an embed-tagged field must be an anonymous struct whose value
is recursively fine; other fields need a recursively fine value. -/
def deepOkField : SField → Bool
  | .mk _ tag _ anon v =>
    if tag = some "-" then true
    else if tag = some "_" then embedTargetOk v anon && deepOk v
    else deepOk v
termination_by structural f => f

end

/-- smallestFields: the Smallest struct with one string field. -/
def smallestFields : List SField :=
  [.mk "SmallestOne" none "" false (.scalar (some (.pstr "")))]

/-- smallFields: Small embeds Smallest and adds SmallOne. -/
def smallFields : List SField :=
  [.mk "Smallest" (some "_") "" true (.strct "Smallest" smallestFields),
   .mk "SmallOne" none "" false (.scalar (some (.pstr "")))]

/-- mediumFields: Medium embeds Small and adds MediumOne. -/
def mediumFields : List SField :=
  [.mk "Small" (some "_") "" true (.strct "Small" smallFields),
   .mk "MediumOne" none "" false (.scalar (some (.pstr "")))]

/-- matroskaFields: Matroska embeds Medium and adds LargeOne. -/
def matroskaFields : List SField :=
  [.mk "Medium" (some "_") "" true (.strct "Medium" mediumFields),
   .mk "LargeOne" none "" false (.scalar (some (.pstr "")))]

/--
C7: building the Node for a Matroska value flattens the embedded chain
completely — the resulting Map holds exactly the four items SmallestOne,
SmallOne, MediumOne and LargeOne, in declaration order, each a Scalar,
with no nested Map entry for the embedded substructures.
-/
theorem C7_matroska_flattening :
    makeNodeStruct "Matroska" matroskaFields
      = .ok [("SmallestOne", "", .scalar (some (.pstr ""))),
             ("SmallOne", "", .scalar (some (.pstr ""))),
             ("MediumOne", "", .scalar (some (.pstr ""))),
             ("LargeOne", "", .scalar (some (.pstr "")))] := by rfl

/-- thing1Fields: a struct declaring a field Stuff. -/
def thing1Fields : List SField :=
  [.mk "Stuff" none "" false (.scalar (some (.pstr "")))]

/-- conflictingFields: two differently-named embedded structs that each
declare a field Stuff. -/
def conflictingFields : List SField :=
  [.mk "Thing1" (some "_") "" true (.strct "Thing1" thing1Fields),
   .mk "Thing2" (some "_") "" true (.strct "Thing2" thing1Fields)]

/-- embedPrimitiveFields: the embed tag on a primitive field. -/
def embedPrimitiveFields : List SField :=
  [.mk "Str" (some "_") "" false (.scalar (some (.pstr "")))]

/-- embedNamedFields: the embed tag on a named (non-anonymous)
struct-typed field. -/
def embedNamedFields : List SField :=
  [.mk "Thing" (some "_") "" false (.strct "Thing1" thing1Fields)]

theorem spliceItems_ok :
    ∀ (citems : List (String × String × Node)) (tn : String)
      (acc : List (String × String × Node)),
      namesNodup (acc.map itemName ++ citems.map itemName) = true →
      spliceItems tn acc citems = .ok (acc ++ citems) := by
  intro citems
  induction citems with
  | nil => intro tn acc _; rw [spliceItems, List.append_nil]
  | cons hd rest ih =>
    intro tn acc hnd
    obtain ⟨n, h, v⟩ := hd
    rw [spliceItems]
    have hnotin : n ∉ acc.map itemName := by
      have hl := (namesNodup_iff _).mp hnd
      intro hmem
      exact List.disjoint_of_nodup_append hl hmem (by simp [itemName])
    have hc : containsName acc n = false := by
      rw [containsName, (lookupItem_none_iff acc n).mpr hnotin]
    rw [if_neg (by simp [hc])]
    have hnd2 : namesNodup ((acc ++ [(n, h, v)]).map itemName ++ rest.map itemName) = true := by
      rw [List.map_append, List.append_assoc]
      simpa [itemName] using hnd
    rw [ih tn (acc ++ [(n, h, v)]) hnd2]
    simp

theorem sizeOf_field_val_lt {gn : String} {tag : Option String} {help : String}
    {anon : Bool} {v : NVal} {rest : List SField} :
    sizeOf v < sizeOf (SField.mk gn tag help anon v :: rest) := by
  simp
  omega

theorem sizeOf_strct_fields_lt {ctn : String} {cfs : List SField} {gn : String}
    {tag : Option String} {help : String} {anon : Bool} {rest : List SField} :
    sizeOf cfs < sizeOf (SField.mk gn tag help anon (.strct ctn cfs) :: rest) := by
  simp
  omega

theorem makeItems_cons (tn : String) (acc : List (String × String × Node))
    (f : SField) (rest : List SField) :
    makeItems tn acc (f :: rest)
      = exBind (stepField tn acc f) (fun acc2 => makeItems tn acc2 rest) := rfl

theorem stepField_def (tn : String) (acc : List (String × String × Node))
    (gn : String) (tag : Option String) (help : String) (anon : Bool) (v : NVal) :
    stepField tn acc (.mk gn tag help anon v)
      = (if tag = some "-" then .ok acc
         else if tag = some "_" then stepEmbed tn gn acc v anon
         else exBind (makeNode v)
           (fun node => .ok (acc ++ [(tag.getD gn, help, node)]))) := rfl

theorem fieldName_def (gn : String) (tag : Option String) (help : String)
    (anon : Bool) (v : NVal) :
    fieldName (.mk gn tag help anon v)
      = (if tag = some "-" then []
         else if tag = some "_" then embedNames v
         else [tag.getD gn]) := rfl

theorem makeItems_ok :
    ∀ (k : Nat) (fields : List SField), sizeOf fields ≤ k →
      ∀ (tn : String) (acc : List (String × String × Node)),
      deepOkFields fields = true →
      namesNodup (acc.map itemName ++ fieldNames fields) = true →
      ∃ res, makeItems tn acc fields = .ok res ∧
        res.map itemName = acc.map itemName ++ fieldNames fields := by
  intro k
  induction k using Nat.strong_induction_on with
  | _ k IH =>
    intro fields hsz tn acc hok hnd
    cases fields with
    | nil =>
      exact ⟨acc, rfl, by rw [fieldNames, List.append_nil]⟩
    | cons hd rest =>
      cases hd with
      | mk gn tag help anon v =>
        have hok2 : (deepOkField (.mk gn tag help anon v) && deepOkFields rest) = true := hok
        have hb := band_true hok2
        have hrest_lt : sizeOf rest < k := by
          have hlt : sizeOf rest < sizeOf (SField.mk gn tag help anon v :: rest) := by
            simp
          omega
        have hnames : fieldNames (SField.mk gn tag help anon v :: rest)
            = fieldName (SField.mk gn tag help anon v) ++ fieldNames rest := rfl
        rw [makeItems_cons, stepField_def]
        by_cases htag1 : tag = some "-"
        · rw [if_pos htag1]
          have hfn : fieldName (SField.mk gn tag help anon v) = [] := by
            rw [fieldName_def, if_pos htag1]
          rw [hnames, hfn, List.nil_append] at hnd
          obtain ⟨res, hres, hrn⟩ := IH (sizeOf rest) hrest_lt rest le_rfl tn acc hb.2 hnd
          refine ⟨res, ?_, by rw [hrn, hnames, hfn, List.nil_append]⟩
          rw [show exBind (Except.ok acc) (fun acc2 => makeItems tn acc2 rest)
              = makeItems tn acc rest from rfl, hres]
        · by_cases htag2 : tag = some "_"
          · rw [if_neg htag1, if_pos htag2]
            have hbf : deepOkField (.mk gn tag help anon v) = true := hb.1
            rw [show deepOkField (.mk gn tag help anon v)
                = (if tag = some "-" then true
                   else if tag = some "_" then embedTargetOk v anon && deepOk v
                   else deepOk v) from rfl, if_neg htag1, if_pos htag2] at hbf
            have hbt := band_true hbf
            cases v with
            | scalar p => rw [show embedTargetOk (.scalar p) anon = false from by
                cases anon <;> rfl] at hbt
                          exact absurd hbt.1 (by simp)
            | strct ctn cfs =>
              cases anon with
              | false => exact absurd hbt.1 (by simp [embedTargetOk])
              | true =>
                have hdeep : (namesNodup (fieldNames cfs) && deepOkFields cfs) = true := hbt.2
                have hbd := band_true hdeep
                have hfn : fieldName (SField.mk gn tag help true (.strct ctn cfs))
                    = fieldNames cfs := by
                  rw [fieldName_def, if_neg htag1, if_pos htag2]
                  rfl
                rw [hnames, hfn] at hnd
                have hcfs_lt : sizeOf cfs < k := by
                  have := @sizeOf_strct_fields_lt ctn cfs gn tag help true rest
                  omega
                obtain ⟨citems, hci, hcn⟩ := IH (sizeOf cfs) hcfs_lt cfs le_rfl ctn []
                  hbd.2 (by simpa using hbd.1)
                rw [show stepEmbed tn gn acc (.strct ctn cfs) true
                    = exBind (makeItems ctn [] cfs)
                        (fun citems => spliceItems tn acc citems) from rfl, hci]
                have hnd_splice : namesNodup (acc.map itemName ++ citems.map itemName) = true := by
                  rw [hcn]
                  simp only [List.map_nil, List.nil_append]
                  have hl := (namesNodup_iff _).mp hnd
                  refine (namesNodup_iff _).mpr (hl.sublist ?_)
                  rw [← List.append_assoc]
                  exact List.sublist_append_left _ _
                rw [show exBind (Except.ok citems) (fun c => spliceItems tn acc c)
                    = spliceItems tn acc citems from rfl,
                  spliceItems_ok citems tn acc hnd_splice]
                have hacc2 : (acc ++ citems).map itemName
                    = acc.map itemName ++ fieldNames cfs := by
                  rw [List.map_append, hcn]
                  simp
                obtain ⟨res, hres, hrn⟩ := IH (sizeOf rest) hrest_lt rest le_rfl tn
                  (acc ++ citems) hb.2 (by rw [hacc2, List.append_assoc]; exact hnd)
                refine ⟨res, ?_, ?_⟩
                · rw [show exBind (Except.ok (acc ++ citems))
                      (fun acc2 => makeItems tn acc2 rest)
                      = makeItems tn (acc ++ citems) rest from rfl, hres]
                · rw [hrn, hacc2, List.append_assoc, hnames, hfn]
          · rw [if_neg htag1, if_neg htag2]
            have hdeep : deepOk v = true := by
              have hbf : deepOkField (.mk gn tag help anon v) = true := hb.1
              rw [show deepOkField (.mk gn tag help anon v)
                  = (if tag = some "-" then true
                     else if tag = some "_" then embedTargetOk v anon && deepOk v
                     else deepOk v) from rfl, if_neg htag1, if_neg htag2] at hbf
              exact hbf
            have hfn : fieldName (SField.mk gn tag help anon v) = [tag.getD gn] := by
              rw [fieldName_def, if_neg htag1, if_neg htag2]
            have hnode : ∃ node, makeNode v = .ok node := by
              cases v with
              | scalar p => exact ⟨.scalar p, rfl⟩
              | strct ctn cfs =>
                have hdeep2 : (namesNodup (fieldNames cfs) && deepOkFields cfs) = true := hdeep
                have hbd := band_true hdeep2
                have hcfs_lt : sizeOf cfs < k := by
                  have := @sizeOf_strct_fields_lt ctn cfs gn tag help anon rest
                  omega
                obtain ⟨citems, hci, _⟩ := IH (sizeOf cfs) hcfs_lt cfs le_rfl ctn []
                  hbd.2 (by simpa using hbd.1)
                refine ⟨.map citems, ?_⟩
                rw [show makeNode (.strct ctn cfs)
                    = mapToNode (makeItems ctn [] cfs) from rfl, hci]
                rfl
            obtain ⟨node, hnodeEq⟩ := hnode
            rw [hnodeEq]
            have hacc2 : (acc ++ [(tag.getD gn, help, node)]).map itemName
                = acc.map itemName ++ [tag.getD gn] := by
              rw [List.map_append]
              rfl
            rw [hnames, hfn] at hnd
            obtain ⟨res, hres, hrn⟩ := IH (sizeOf rest) hrest_lt rest le_rfl tn
              (acc ++ [(tag.getD gn, help, node)]) hb.2
              (by rw [hacc2, List.append_assoc]; exact hnd)
            refine ⟨res, ?_, ?_⟩
            · rw [show exBind (Except.ok node)
                  (fun nd => Except.ok (acc ++ [(tag.getD gn, help, nd)]))
                  = Except.ok (acc ++ [(tag.getD gn, help, node)]) from rfl]
              rw [show exBind (Except.ok (acc ++ [(tag.getD gn, help, node)]))
                  (fun acc2 => makeItems tn acc2 rest)
                  = makeItems tn (acc ++ [(tag.getD gn, help, node)]) rest from rfl, hres]
            · rw [hrn, hacc2, List.append_assoc, hnames, hfn]

/--
C6: makeNodeStruct fails fast in exactly the two embedding failure modes.
It fails on the repository's three failing schemas with the expected
messages — the two-embedded-Stuff collision aborts with a message that
mentions the duplicate name in quotes, the word duplicate and the type
name, and an embed tag on a primitive field or on a named struct field
aborts with a message naming the embed tag and the offending path — and
it fails only in those modes: whenever every embed tag sits on an
anonymous struct field and the flattened names of every reachable struct
are pairwise distinct, construction succeeds.
-/
theorem C6_embed_failure_modes :
    (makeNodeStruct "ConflictingName" conflictingFields
        = .error (dupMsg "ConflictingName" "Stuff") ∧
      List.IsInfix "'Stuff'".data (dupMsg "ConflictingName" "Stuff").data ∧
      List.IsInfix "duplicate".data (dupMsg "ConflictingName" "Stuff").data ∧
      List.IsInfix "ConflictingName".data (dupMsg "ConflictingName" "Stuff").data) ∧
    (makeNodeStruct "EmbedPrimitive" embedPrimitiveFields
        = .error (invalidEmbedMsg "EmbedPrimitive" "Str") ∧
      List.IsInfix "\"_\"".data (invalidEmbedMsg "EmbedPrimitive" "Str").data ∧
      List.IsInfix "at path EmbedPrimitive.Str".data
        (invalidEmbedMsg "EmbedPrimitive" "Str").data) ∧
    (makeNodeStruct "EmbedNamedStruct" embedNamedFields
        = .error (invalidEmbedMsg "EmbedNamedStruct" "Thing") ∧
      List.IsInfix "\"_\"".data (invalidEmbedMsg "EmbedNamedStruct" "Thing").data ∧
      List.IsInfix "at path EmbedNamedStruct.Thing".data
        (invalidEmbedMsg "EmbedNamedStruct" "Thing").data) ∧
    (∀ (tn : String) (fields : List SField), deepOk (.strct tn fields) = true →
      ∃ items, makeNodeStruct tn fields = .ok items) := by
  refine ⟨⟨by rfl, by decide, by decide, by decide⟩,
    ⟨by rfl, by decide, by decide⟩, ⟨by rfl, by decide, by decide⟩, ?_⟩
  intro tn fields hok
  have hok2 : (namesNodup (fieldNames fields) && deepOkFields fields) = true := hok
  have hb := band_true hok2
  obtain ⟨items, hres, _⟩ := makeItems_ok (sizeOf fields) fields le_rfl tn []
    hb.2 (by simpa using hb.1)
  exact ⟨items, hres⟩

/--
C6 (witness): the success direction applied to the Matroska chain, whose
embed tags all sit on anonymous struct fields and whose flattened names
are distinct.
-/
theorem C6_witness : ∃ items, makeNodeStruct "Matroska" matroskaFields = .ok items :=
  C6_embed_failure_modes.2.2.2 "Matroska" matroskaFields (by rfl)

end Conf
